import Mathlib

/-!
Verification of the structural code-navigation core of `vscode-utilities`.

The buffer of a text document is modelled as a `List Char` (full text, with
newline characters) for the offset-based sexp scanner and transposition
engine, and as a `List (List Char)` (one entry per line, without the
terminating newline) for the line-based scope and bracket finders, matching
how each piece of the source accesses the document (`document.getText()` /
`document.offsetAt` / `document.positionAt` versus `document.lineAt(i).text`).

Positions are zero-based `(line, column)` pairs as in the VS Code API.
-/

namespace VSU

/-- A position in a document: zero-based line and character (column). -/
structure Pos where
  line : Nat
  character : Nat
deriving Repr, DecidableEq

/-- `vscode.Position.isBefore`: strict lexicographic order on positions. -/
def Pos.isBefore (a b : Pos) : Bool :=
  a.line < b.line || (a.line = b.line && a.character < b.character)

/-- `vscode.Position.isAfterOrEqual` / `isBeforeOrEqual` are derived from
lexicographic comparison. -/
def Pos.isBeforeOrEqual (a b : Pos) : Bool :=
  a.line < b.line || (a.line = b.line && a.character ≤ b.character)

def Pos.isAfterOrEqual (a b : Pos) : Bool :=
  b.isBeforeOrEqual a

/-- `SexpBoundary` from `sexp-navigation/types`: the span of one navigable
unit, `end` exclusive (one past the last included character). -/
structure SexpBoundary where
  startLine : Nat
  startChar : Nat
  endLine : Nat
  endChar : Nat
deriving Repr, DecidableEq

def SexpBoundary.startPos (b : SexpBoundary) : Pos := ⟨b.startLine, b.startChar⟩

def SexpBoundary.endPos (b : SexpBoundary) : Pos := ⟨b.endLine, b.endChar⟩

/-- `document.offsetAt`: character offset of a `(line, column)` position in
the full text.  Columns beyond the line length are not clamped here; all
uses below are at valid positions. -/
def offsetAt : List Char → Nat → Nat → Nat
  | _, 0, col => col
  | [], _ + 1, col => col
  | c :: cs, l + 1, col =>
      1 + (if c = '\n' then offsetAt cs l col else offsetAt cs (l + 1) col)

def offsetAtPos (text : List Char) (p : Pos) : Nat :=
  offsetAt text p.line p.character

/-- `document.positionAt`: `(line, column)` of a character offset, clamped
to the end of the text. -/
def positionAt : List Char → Nat → Pos
  | _, 0 => ⟨0, 0⟩
  | [], _ + 1 => ⟨0, 0⟩
  | c :: cs, o + 1 =>
      let p := positionAt cs o
      if c = '\n' then ⟨p.line + 1, p.character⟩
      else if p.line = 0 then ⟨0, p.character + 1⟩ else p

/-- Substring of the text between two offsets (`document.getText` of a
range, after converting its endpoints to offsets). -/
def extract (text : List Char) (s e : Nat) : List Char :=
  (text.take e).drop s

/-- A single range replacement at offset level (`TextEditorEdit.replace`
with the range already converted to offsets against the document the edit
was built from). -/
def replaceOff (text : List Char) (s e : Nat) (ins : List Char) : List Char :=
  text.take s ++ ins ++ text.drop e

/-- `/[a-zA-Z0-9_$]/` of `TypeScriptSexpNavigator`: identifier characters. -/
def isIdentChar (c : Char) : Bool :=
  ('a' ≤ c && c ≤ 'z') || ('A' ≤ c && c ≤ 'Z') || ('0' ≤ c && c ≤ '9')
    || c = '_' || c = '$'

/-- The `openingChars` array of the navigator. -/
def isOpeningChar (c : Char) : Bool := c = '(' || c = '[' || c = '{'

/-- The `closingChars` array of the navigator. -/
def isClosingChar (c : Char) : Bool := c = ')' || c = ']' || c = '}'

/-- The `matchingPairs` map of the navigator. -/
def matchingPair (c : Char) : Char :=
  if c = '(' then ')' else if c = '[' then ']' else if c = '{' then '}'
  else if c = ')' then '(' else if c = ']' then '[' else if c = '}' then '{'
  else c

/-- `findMatchingClosingChar`: scan right over the remaining characters
(`l` is the suffix of the text starting at offset `pos`), incrementing the
depth on `openChar` and decrementing on `closeChar`; the offset where the
depth first returns to zero is the match.  Running out of characters yields
`none` (the `-1` sentinel of the source). -/
def matchForwardAux (openChar closeChar : Char) : List Char → Nat → Int → Option Nat
  | [], _, _ => none
  | ch :: rest, pos, depth =>
      if ch = openChar then matchForwardAux openChar closeChar rest (pos + 1) (depth + 1)
      else if ch = closeChar then
        if depth - 1 = 0 then some pos
        else matchForwardAux openChar closeChar rest (pos + 1) (depth - 1)
      else matchForwardAux openChar closeChar rest (pos + 1) depth

def matchForward (text : List Char) (openChar closeChar : Char) (pos : Nat)
    (depth : Int) : Option Nat :=
  matchForwardAux openChar closeChar (text.drop pos) pos depth

/-- `findMatchingOpeningChar`: mirror scan moving left from offset `pos`.
Out-of-range reads (`text[i]` past the end in JavaScript) behave as a
non-delimiter character, modelled with a space default. -/
def matchBackward (text : List Char) (closeChar openChar : Char) : Nat → Int → Option Nat
  | 0, depth =>
      if text.getD 0 ' ' = openChar ∧ depth - 1 = 0 then some 0 else none
  | p + 1, depth =>
      let c := text.getD (p + 1) ' '
      if c = openChar ∧ depth - 1 = 0 then some (p + 1)
      else matchBackward text closeChar openChar p
        (if c = closeChar then depth + 1 else if c = openChar then depth - 1 else depth)

/-- The identifier-run loop of `findForwardSexp`: first offset at or after
`pos` that is not an identifier character (`l` is the text suffix at `pos`). -/
def identEndAux : List Char → Nat → Nat
  | [], pos => pos
  | ch :: rest, pos => if isIdentChar ch then identEndAux rest (pos + 1) else pos

def identEnd (text : List Char) (pos : Nat) : Nat :=
  identEndAux (text.drop pos) pos

/-- The identifier-run loop of `findBackwardSexp`: start of the identifier
run whose last character sits at `pos`. -/
def identStart (text : List Char) : Nat → Nat
  | 0 => 0
  | p + 1 => if isIdentChar (text.getD p ' ') then identStart text p else p + 1

/-- `findForwardSexp`, offset level: skip right to the first opening
delimiter with a match, or identifier run; result is `(start, end)` with
`end` exclusive.  `l` is the suffix of the text at offset `pos`; an opening
delimiter without a match is skipped, exactly as in the source. -/
def findForwardAux (text : List Char) : List Char → Nat → Option (Nat × Nat)
  | [], _ => none
  | ch :: rest, pos =>
      if isOpeningChar ch then
        match matchForward text ch (matchingPair ch) pos 0 with
        | some endPos => some (pos, endPos + 1)
        | none => findForwardAux text rest (pos + 1)
      else if isIdentChar ch then some (pos, identEnd text pos)
      else findForwardAux text rest (pos + 1)

def findForwardFrom (text : List Char) (pos : Nat) : Option (Nat × Nat) :=
  findForwardAux text (text.drop pos) pos

/-- `findBackwardSexp`, offset level, examining offset `pos` and moving
left.  A closing delimiter without a matching opener is skipped, exactly as
in the source. -/
def findBackwardAux (text : List Char) : Nat → Option (Nat × Nat)
  | 0 =>
      let c := text.getD 0 ' '
      if isClosingChar c then
        match matchBackward text c (matchingPair c) 0 0 with
        | some startPos => some (startPos, 1)
        | none => none
      else if isIdentChar c then some (identStart text 0, 1)
      else none
  | p + 1 =>
      let c := text.getD (p + 1) ' '
      if isClosingChar c then
        match matchBackward text c (matchingPair c) (p + 1) 0 with
        | some startPos => some (startPos, p + 2)
        | none => findBackwardAux text p
      else if isIdentChar c then some (identStart text (p + 1), p + 2)
      else findBackwardAux text p

/-- `findBackwardSexp` starts at `offset - 1`; at offset `0` the scan body
never runs. -/
def findBackwardSexpOff (text : List Char) (offset : Nat) : Option (Nat × Nat) :=
  match offset with
  | 0 => none
  | o + 1 => findBackwardAux text o

/-- Boundary construction via `document.positionAt`, as in the source. -/
def mkBoundary (text : List Char) (s e : Nat) : SexpBoundary :=
  let sp := positionAt text s
  let ep := positionAt text e
  ⟨sp.line, sp.character, ep.line, ep.character⟩

/-- `TypeScriptSexpNavigator.findForwardSexp` on `(line, column)` positions. -/
def findForwardSexp (text : List Char) (p : Pos) : Option SexpBoundary :=
  (findForwardFrom text (offsetAtPos text p)).map (fun r => mkBoundary text r.1 r.2)

/-- `TypeScriptSexpNavigator.findBackwardSexp` on `(line, column)` positions. -/
def findBackwardSexp (text : List Char) (p : Pos) : Option SexpBoundary :=
  (findBackwardSexpOff text (offsetAtPos text p)).map (fun r => mkBoundary text r.1 r.2)

/-- Contribution of one character to the delimiter depth tracked by the
matchers (`+1` on the opening character, `-1` on its closing partner). -/
def balStep (o c ch : Char) : Int :=
  if ch = o then 1 else if ch = c then -1 else 0

/-- Signed `o`/`c` balance of the `n` characters starting at offset `i`. -/
def segBal (o c : Char) (text : List Char) : Nat → Nat → Int
  | _, 0 => 0
  | i, n + 1 => balStep o c (text.getD i ' ') + segBal o c text (i + 1) n

/-- `BaseSexpHandler.orderBoundaries`: order two boundaries by their start
position (`Position.isBefore`). -/
def orderBoundaries (a b : SexpBoundary) : SexpBoundary × SexpBoundary :=
  if a.startPos.isBefore b.startPos then (a, b) else (b, a)

/-- `document.getText` of a boundary's range. -/
def getTextB (text : List Char) (b : SexpBoundary) : List Char :=
  extract text (offsetAtPos text b.startPos) (offsetAtPos text b.endPos)

/-- `BaseSexpHandler.getSpaceBetween`: `null` exactly when the earlier
boundary's end coincides with the later boundary's start; otherwise the
literal text between them.  The source's same-line and cross-line branches
compute the same range text and are merged here. -/
def getSpaceBetween (text : List Char) (first second : SexpBoundary) : Option (List Char) :=
  let p := orderBoundaries first second
  if p.1.endLine = p.2.startLine ∧ p.1.endChar = p.2.startChar then none
  else some (extract text (offsetAtPos text p.1.endPos) (offsetAtPos text p.2.startPos))

/-- The batch of `editBuilder.replace` calls queued by
`SexpTranspositionHandlers.transposeSexpressions` inside its single
`editor.edit` transaction: two replaces when the boundaries are adjacent
(`getSpaceBetween` returned `null`), one combined replace otherwise. -/
def transposeEdits (text : List Char) (first second : SexpBoundary) :
    List (SexpBoundary × List Char) :=
  match getSpaceBetween text first second with
  | none => [(first, getTextB text second), (second, getTextB text first)]
  | some sp =>
      [(⟨first.startLine, first.startChar, second.endLine, second.endChar⟩,
        getTextB text second ++ sp ++ getTextB text first)]

/-- VS Code resolves every range of one edit transaction against the
document the ranges were produced from; for ranges in ascending document
order this equals resolving each range to offsets first and applying the
replaces from the last range back to the first. -/
def applyEditsRL (text : List Char) (edits : List (SexpBoundary × List Char)) : List Char :=
  ((edits.map fun ed =>
      (offsetAtPos text ed.1.startPos, offsetAtPos text ed.1.endPos, ed.2))).foldr
    (fun ed acc => replaceOff acc ed.1 ed.2.1 ed.2.2) text

/-- The buffer text after `transposeSexpressions`. -/
def transposeNewText (text : List Char) (first second : SexpBoundary) : List Char :=
  applyEditsRL text (transposeEdits text first second)

/-- After the edit, `transposeSexpressions` places the cursor at the first
boundary's start position. -/
def transposeCursor (first second : SexpBoundary) : Pos :=
  ⟨first.startLine, first.startChar⟩

/-- `BaseSexpHandler.boundaryContainsPosition`: containment, inclusive at
both endpoints. -/
def boundaryContainsPosition (b : SexpBoundary) (p : Pos) : Bool :=
  p.isAfterOrEqual b.startPos && p.isBeforeOrEqual b.endPos

/-- `BaseSexpHandler.isSameBoundary`. -/
def isSameBoundary (a b : SexpBoundary) : Bool :=
  a.startLine == b.startLine && a.startChar == b.startChar &&
    a.endLine == b.endLine && a.endChar == b.endChar

/-- `BaseSexpHandler.calculateBoundarySize`: character difference on one
line, otherwise `lineCount * 1000 + (endChar + (1000 - startChar))`. -/
def calculateBoundarySize (b : SexpBoundary) : Int :=
  if b.startLine = b.endLine then (b.endChar : Int) - (b.startChar : Int)
  else ((b.endLine : Int) - (b.startLine : Int)) * 1000 +
    ((b.endChar : Int) + (1000 - (b.startChar : Int)))

/-- `BaseSexpHandler.isSmallerBoundary`. -/
def isSmallerBoundary (a b : SexpBoundary) : Bool :=
  calculateBoundarySize a < calculateBoundarySize b

/-- The candidate collection loop of `BaseSexpHandler.findParentSexpression`:
`findForwardSexp` is invoked at column 0 of each line from `position.line`
down to `max 0 (position.line - 50)` (`maxLineSearch = 50`), keeping results
that contain the position and differ from the excluded boundary. -/
def findParentCandidates (text : List Char) (pos : Pos)
    (currentBoundary : Option SexpBoundary) : List SexpBoundary :=
  (List.range 51).filterMap fun i =>
    if i ≤ pos.line then
      match findForwardSexp text ⟨pos.line - i, 0⟩ with
      | some b =>
          if boundaryContainsPosition b pos &&
              (match currentBoundary with
               | none => true
               | some cur => !isSameBoundary b cur) then some b else none
      | none => none
    else none

/-- The filter applied before sorting when an excluded boundary is given:
drop candidates smaller than or equal to it under the size metric. -/
def findParentFiltered (text : List Char) (pos : Pos)
    (currentBoundary : Option SexpBoundary) : List SexpBoundary :=
  match currentBoundary with
  | none => findParentCandidates text pos none
  | some cur =>
      (findParentCandidates text pos (some cur)).filter fun p =>
        !isSmallerBoundary p cur && !isSameBoundary p cur

/-- `candidateParents.sort(bySize)[0]`: JavaScript's sort is stable, so the
head of the sorted array is the first element of minimal size, i.e. the
left fold keeping the strictly smaller element. -/
def pickSmallest : List SexpBoundary → Option SexpBoundary
  | [] => none
  | b :: rest =>
      some (rest.foldl
        (fun best c =>
          if calculateBoundarySize c < calculateBoundarySize best then c else best) b)

/-- `BaseSexpHandler.findParentSexpression`.  When the unfiltered candidate
array is empty the source returns `undefined` before sorting; when the
filter empties it, `candidateParents[0]` is `undefined` as well. -/
def findParentSexpression (text : List Char) (pos : Pos)
    (currentBoundary : Option SexpBoundary) : Option SexpBoundary :=
  match findParentCandidates text pos currentBoundary with
  | [] => none
  | _ :: _ => pickSmallest (findParentFiltered text pos currentBoundary)

/-- `SexpTranspositionHandlers.findPreviousSibling`: scan `forward` starting
at the **parent's start position**, tracking the previous unit, until the
current boundary is reached, the parent is left, or nothing is found.  The
fuel argument only bounds the loop; each iteration strictly advances the
scan offset, so `text.length + 2` steps are never exhausted. -/
def findPreviousSiblingAux (text : List Char) (current parent : SexpBoundary) :
    Nat → Pos → Option SexpBoundary → Option SexpBoundary
  | 0, _, _ => none
  | fuel + 1, posn, prev =>
      match findForwardSexp text posn with
      | none => none
      | some sib =>
          if isSameBoundary sib current then prev
          else if boundaryContainsPosition parent sib.endPos then
            findPreviousSiblingAux text current parent fuel sib.endPos (some sib)
          else none

def findPreviousSibling (text : List Char) (current parent : SexpBoundary) :
    Option SexpBoundary :=
  findPreviousSiblingAux text current parent (text.length + 2) parent.startPos none

/-- Column span and lexicographic (line span, column span) comparison used
by the specification's description of the parent search. -/
def specSpanLt (a b : SexpBoundary) : Bool :=
  (a.endLine - a.startLine < b.endLine - b.startLine) ||
    ((a.endLine - a.startLine == b.endLine - b.startLine) &&
      (a.endChar - a.startChar < b.endChar - b.startChar))

/-- Modelled from the spec (§4.4, claim C4): enumerate candidate units by
invoking `forward` from every opening-delimiter character position in the
whole buffer, retain those containing the position, and take the minimum
under the (line span, then column span) order.  Used only for comparison
with `findParentSexpression`. -/
def specFindParent (text : List Char) (pos : Pos) : Option SexpBoundary :=
  ((List.range text.length).filterMap fun i =>
    if isOpeningChar (text.getD i ' ') then
      match findForwardFrom text i with
      | some (s, e) =>
          let b := mkBoundary text s e
          if boundaryContainsPosition b pos then some b else none
      | none => none
    else none).foldl
    (fun best c =>
      match best with
      | none => some c
      | some bb => if specSpanLt c bb then some c else some bb) none

/-- JavaScript's `\s` class for the characters that occur in source lines
(`PythonScopeFinder.getIndentation` uses `/^(\s*)/`, `trim()` strips the
same class). -/
def isWSChar (c : Char) : Bool := c.isWhitespace

/-- `PythonScopeFinder.getIndentation`: the leading whitespace of a line. -/
def pyGetIndentation (l : List Char) : List Char := l.takeWhile isWSChar

/-- `lineText.trim() === ''`. -/
def isBlankLine (l : List Char) : Bool := l.all isWSChar

/-- `lineText.trim().startsWith('#')`. -/
def trimStartsWithHash (l : List Char) : Bool :=
  match l.dropWhile isWSChar with
  | [] => false
  | c :: _ => c = '#'

/-- The forward scan of `PythonScopeFinder.findScopeBoundary`: `rest` is the
suffix of the line list starting at index `line`.  Blank and comment-only
lines are skipped; the scope ends at `line - 1` when a non-blank line with
indentation at most `baseLen` is reached; reaching the end of the buffer
ends the scope at the last line (`currentLine ≤ maxLines - 1` is written
`currentLine + 1 ≤ maxLines`, as the JavaScript comparison is over
integers). -/
def pyScan (maxLines baseLen currentLine : Nat) :
    List (List Char) → Nat → Option Nat
  | [], _ => if currentLine + 1 ≤ maxLines then some (maxLines - 1) else none
  | lt :: rest, line =>
      if isBlankLine lt || trimStartsWithHash lt then
        pyScan maxLines baseLen currentLine rest (line + 1)
      else if (pyGetIndentation lt).length ≤ baseLen && !isBlankLine lt then
        (if currentLine ≤ line - 1 then some (line - 1) else none)
      else pyScan maxLines baseLen currentLine rest (line + 1)

/-- `PythonScopeFinder.findScopeBoundary`.  JavaScript's `!baseIndent` is
true both for `undefined` and for the empty string, so an empty explicit
base indentation is recomputed from the start line. -/
def pyFindScopeBoundary (lines : List (List Char)) (startLine currentLine : Nat)
    (baseIndent? : Option (List Char)) : Option Nat :=
  let baseIndent :=
    match baseIndent? with
    | none => pyGetIndentation (lines.getD startLine [])
    | some s => if s.isEmpty then pyGetIndentation (lines.getD startLine []) else s
  if currentLine < startLine then none
  else pyScan lines.length baseIndent.length currentLine
    (lines.drop (startLine + 1)) (startLine + 1)

/-- A line that terminates an indentation scope opened at `startLine`:
neither blank nor comment-only, with indentation at most the base
indentation. -/
def isPyTerminator (lines : List (List Char)) (startLine j : Nat) : Prop :=
  (isBlankLine (lines.getD j []) || trimStartsWithHash (lines.getD j [])) = false ∧
    (pyGetIndentation (lines.getD j [])).length ≤
      (pyGetIndentation (lines.getD startLine [])).length

instance (lines : List (List Char)) (startLine j : Nat) :
    Decidable (isPyTerminator lines startLine j) := by
  unfold isPyTerminator
  infer_instance

/-- The per-character bracket count of
`TypeScriptScopeFinder.findScopeBoundary` over one line; `Sum.inl ()`
signals the early return (a `}` brought the count to zero with an opening
bracket already seen). -/
def tsScanLine : List Char → Int → Bool → Sum Unit (Int × Bool)
  | [], cnt, found => Sum.inr (cnt, found)
  | ch :: rest, cnt, found =>
      if ch = '{' then tsScanLine rest (cnt + 1) true
      else if ch = '}' then
        (if found = true ∧ cnt - 1 = 0 then Sum.inl ()
         else tsScanLine rest (cnt - 1) found)
      else tsScanLine rest cnt found

/-- The line loop of `TypeScriptScopeFinder.findScopeBoundary`: `rest` is
the suffix of the line list at index `i`.  On the balancing line the source
returns `i` when `i ≥ currentLine` and `null` otherwise. -/
def tsGo (currentLine : Nat) : List (List Char) → Nat → Int → Bool → Option Nat
  | [], _, _, _ => none
  | lt :: rest, i, cnt, found =>
      match tsScanLine lt cnt found with
      | Sum.inl _ => if currentLine ≤ i then some i else none
      | Sum.inr cf => tsGo currentLine rest (i + 1) cf.1 cf.2

/-- `TypeScriptScopeFinder.findScopeBoundary`. -/
def tsFindScopeBoundary (lines : List (List Char)) (startLine currentLine : Nat) :
    Option Nat :=
  tsGo currentLine (lines.drop startLine) startLine 0 false

/-- Signed `{`/`}` balance of one line. -/
def lineBalance : List Char → Int
  | [] => 0
  | ch :: rest => (if ch = '{' then 1 else if ch = '}' then -1 else 0) + lineBalance rest

/-- Signed `{`/`}` balance of the `n` lines starting at line `i`. -/
def cumBalance (lines : List (List Char)) : Nat → Nat → Int
  | _, 0 => 0
  | i, n + 1 => lineBalance (lines.getD i []) + cumBalance lines (i + 1) n

/-- Line `e` makes the running brace counter, started at line `startLine`,
transition to exactly zero on a `}` after having been positive (the counter
is `1`, hence positive, just before the transition). -/
def tsTriggerLine (lines : List (List Char)) (startLine e : Nat) : Prop :=
  ∃ k < (lines.getD e []).length, (lines.getD e []).getD k ' ' = '}' ∧
    cumBalance lines startLine (e - startLine) +
      lineBalance ((lines.getD e []).take k) = 1

instance (lines : List (List Char)) (startLine e : Nat) :
    Decidable (tsTriggerLine lines startLine e) := by
  unfold tsTriggerLine
  infer_instance

/-- `BracketPair` from `bracket-scope/types`. -/
structure BracketPair where
  openBracketLine : Nat
  openBracketChar : Nat
  closeBracketLine : Nat
  closeBracketChar : Nat
deriving Repr, DecidableEq

/-- The inner backward character loop of
`CurlyBracketFinder.findBracketPairContainingCursor`: examine index `ch`
of one line moving left (`lineText[ch]` out of range behaves as a
non-bracket character); `Sum.inl` is the `bracketStack === -1` hit. -/
def cbBackChar (l : List Char) : Nat → Int → Sum Nat Int
  | 0, stack =>
      if l.getD 0 ' ' = '}' then Sum.inr (stack + 1)
      else if l.getD 0 ' ' = '{' then
        (if stack - 1 = -1 then Sum.inl 0 else Sum.inr (stack - 1))
      else Sum.inr stack
  | ch + 1, stack =>
      if l.getD (ch + 1) ' ' = '}' then cbBackChar l ch (stack + 1)
      else if l.getD (ch + 1) ' ' = '{' then
        (if stack - 1 = -1 then Sum.inl (ch + 1) else cbBackChar l ch (stack - 1))
      else cbBackChar l ch stack

/-- The outer backward line loop: on the cursor line only characters up to
the cursor are examined (`endChar = cursorChar`), on other lines the whole
line. -/
def cbBackLines (lines : List (List Char)) (cursorLine cursorChar : Nat) :
    Nat → Int → Option (Nat × Nat)
  | 0, stack =>
      match cbBackChar (lines.getD 0 [])
          (if 0 = cursorLine then cursorChar else (lines.getD 0 []).length) stack with
      | Sum.inl ch => some (0, ch)
      | Sum.inr _ => none
  | li + 1, stack =>
      match cbBackChar (lines.getD (li + 1) [])
          (if li + 1 = cursorLine then cursorChar else (lines.getD (li + 1) []).length)
          stack with
      | Sum.inl ch => some (li + 1, ch)
      | Sum.inr st => cbBackLines lines cursorLine cursorChar li st

/-- The forward character loop searching for the matching `}` (`l` is the
suffix of the line from the scan start, `idx` the absolute index);
`Sum.inl` is the `bracketStack === 0` hit. -/
def cbFwdLineScan : List Char → Nat → Int → Sum Nat Int
  | [], _, stack => Sum.inr stack
  | ch :: rest, idx, stack =>
      if ch = '{' then cbFwdLineScan rest (idx + 1) (stack + 1)
      else if ch = '}' then
        (if stack - 1 = 0 then Sum.inl idx else cbFwdLineScan rest (idx + 1) (stack - 1))
      else cbFwdLineScan rest (idx + 1) stack

/-- The forward line loop searching for the matching `}` from just after
the opening bracket; `ls` is the suffix of the line list at index `line`. -/
def cbFwdLinesAux (openLine openChar : Nat) :
    List (List Char) → Nat → Int → Option (Nat × Nat)
  | [], _, _ => none
  | l :: rest, line, stack =>
      let sc := if line = openLine then openChar + 1 else 0
      match cbFwdLineScan (l.drop sc) sc stack with
      | Sum.inl ch => some (line, ch)
      | Sum.inr st => cbFwdLinesAux openLine openChar rest (line + 1) st

def cbFwdLines (lines : List (List Char)) (openLine openChar : Nat) :
    Option (Nat × Nat) :=
  cbFwdLinesAux openLine openChar (lines.drop openLine) openLine 1

/-- `CurlyBracketFinder.findBracketPairContainingCursor`. -/
def findBracketPairContainingCursor (lines : List (List Char))
    (cursorLine cursorChar : Nat) : Option BracketPair :=
  match cbBackLines lines cursorLine cursorChar cursorLine 0 with
  | none => none
  | some (ol, oc) =>
      match cbFwdLines lines ol oc with
      | none => none
      | some (cll, clc) =>
          if (cursorLine > ol ∨ (cursorLine = ol ∧ cursorChar > oc)) ∧
              (cursorLine < cll ∨ (cursorLine = cll ∧ cursorChar < clc)) then
            some ⟨ol, oc, cll, clc⟩
          else none

/-- The forward search for the next `{` in one line (`l` is the suffix of
the line from the scan start, `idx` the absolute index). -/
def cbFindOpenAux : List Char → Nat → Option Nat
  | [], _ => none
  | ch :: rest, idx => if ch = '{' then some idx else cbFindOpenAux rest (idx + 1)

/-- The line loop of `findNextBracketPair`'s opening-bracket search: on the
cursor line the search starts **at** the cursor character. -/
def cbFindOpenLinesAux (cursorLine cursorChar : Nat) :
    List (List Char) → Nat → Option (Nat × Nat)
  | [], _ => none
  | l :: rest, line =>
      let sc := if line = cursorLine then cursorChar else 0
      match cbFindOpenAux (l.drop sc) sc with
      | some ch => some (line, ch)
      | none => cbFindOpenLinesAux cursorLine cursorChar rest (line + 1)

/-- `CurlyBracketFinder.findNextBracketPair`. -/
def findNextBracketPair (lines : List (List Char)) (cursorLine cursorChar : Nat) :
    Option BracketPair :=
  match cbFindOpenLinesAux cursorLine cursorChar (lines.drop cursorLine) cursorLine with
  | none => none
  | some (ol, oc) =>
      match cbFwdLines lines ol oc with
      | none => none
      | some (cll, clc) => some ⟨ol, oc, cll, clc⟩

/-- The concatenation of all lines, in document order.  The bracket scans
read only `lineAt(i).text`, so line separators never enter any bracket
count and the flattened text is exactly the character sequence the scans
traverse. -/
def flatText (lines : List (List Char)) : List Char := lines.join

/-- Flat index of the first character of line `i`. -/
def flatLineStart : List (List Char) → Nat → Nat
  | _, 0 => 0
  | [], _ + 1 => 0
  | l :: rest, i + 1 => l.length + flatLineStart rest i

/-- Flat index of the character at `(line i, column j)`. -/
def flatIdxP (lines : List (List Char)) (i j : Nat) : Nat :=
  flatLineStart lines i + j

/-- `(line, column)` of a flat index. -/
def flatToPos : List (List Char) → Nat → Nat × Nat
  | [], n => (0, n)
  | l :: rest, n =>
      if n < l.length then (0, n)
      else
        let p := flatToPos rest (n - l.length)
        (p.1 + 1, p.2)

/-- One-dimensional model of the backward bracket scan: examine flat
indices `p, p-1, …, 0` with the running stack, stopping at a `\x7b` that
drops the stack to `-1`. -/
def cbBack1 (F : List Char) : Nat → Int → Option Nat
  | 0, stack =>
      if F.getD 0 ' ' = '}' then none
      else if F.getD 0 ' ' = '{' then
        (if stack - 1 = -1 then some 0 else none)
      else none
  | p + 1, stack =>
      if F.getD (p + 1) ' ' = '}' then cbBack1 F p (stack + 1)
      else if F.getD (p + 1) ' ' = '{' then
        (if stack - 1 = -1 then some (p + 1) else cbBack1 F p (stack - 1))
      else cbBack1 F p stack

/-- Backward scan over the `n` flat indices below `n`. -/
def backFrom (F : List Char) (n : Nat) (stack : Int) : Option Nat :=
  match n with
  | 0 => none
  | m + 1 => cbBack1 F m stack

/-- The stop condition of the backward scan in balance form: index `i`
holds a `\x7b` and the signed balance of `(i, p]` equals the stack the scan
entered index `p` with. -/
def backCond (F : List Char) (p i : Nat) (d : Int) : Prop :=
  F.getD i ' ' = '{' ∧ segBal '{' '}' F (i + 1) (p - i) = d

instance (F : List Char) (p i : Nat) (d : Int) : Decidable (backCond F p i d) := by
  unfold backCond; infer_instance

/-- A well-formed brace pair in the flat text: `\x7b` at `o`, `\x7d` at `c`,
the interior balances to zero and no interior prefix dips negative. -/
def wfpFlat (F : List Char) (o c : Nat) : Prop :=
  o < c ∧ c < F.length ∧ F.getD o ' ' = '{' ∧ F.getD c ' ' = '}' ∧
  segBal '{' '}' F (o + 1) (c - (o + 1)) = 0 ∧
  ∀ j, j ≤ c - (o + 1) → 0 ≤ segBal '{' '}' F (o + 1) j

instance (F : List Char) (o c : Nat) : Decidable (wfpFlat F o c) := by
  unfold wfpFlat; infer_instance

/-- A well-formed curly-brace pair of the buffer, in line/column terms:
both endpoints are real characters and the flat pair they denote is
well-formed. -/
def wellFormedPair (lines : List (List Char)) (P : BracketPair) : Prop :=
  P.openBracketLine < lines.length ∧
  P.openBracketChar < (lines.getD P.openBracketLine []).length ∧
  P.closeBracketLine < lines.length ∧
  P.closeBracketChar < (lines.getD P.closeBracketLine []).length ∧
  wfpFlat (flatText lines)
    (flatIdxP lines P.openBracketLine P.openBracketChar)
    (flatIdxP lines P.closeBracketLine P.closeBracketChar)

instance (lines : List (List Char)) (P : BracketPair) :
    Decidable (wellFormedPair lines P) := by
  unfold wellFormedPair; infer_instance

/-- The cursor lies strictly between the pair's endpoints — written exactly
as the acceptance test of `findBracketPairContainingCursor`
(`isAfterOpening && isBeforeClosing`). -/
def strictlyInside (cursorLine cursorChar : Nat) (P : BracketPair) : Prop :=
  (cursorLine > P.openBracketLine ∨
    (cursorLine = P.openBracketLine ∧ cursorChar > P.openBracketChar)) ∧
  (cursorLine < P.closeBracketLine ∨
    (cursorLine = P.closeBracketLine ∧ cursorChar < P.closeBracketChar))

instance (cursorLine cursorChar : Nat) (P : BracketPair) :
    Decidable (strictlyInside cursorLine cursorChar P) := by
  unfold strictlyInside; infer_instance

theorem offsetAt_positionAt (text : List Char) (off : Nat) (h : off ≤ text.length) :
    offsetAtPos text (positionAt text off) = off := by
  induction text generalizing off with
  | nil =>
      have h0 : off = 0 := Nat.le_zero.mp (by simpa using h)
      subst h0
      rfl
  | cons c cs ih =>
      cases off with
      | zero => rfl
      | succ o =>
          have ho : o ≤ cs.length := by simpa using h
          have ihh := ih o ho
          rcases hp : positionAt cs o with ⟨pl, pc⟩
          rw [hp] at ihh
          simp only [offsetAtPos] at ihh ⊢
          simp only [positionAt, hp]
          by_cases hc : c = '\n'
          · subst hc
            simp only [offsetAt] at ihh ⊢
            simp at ihh ⊢
            omega
          · rw [if_neg hc]
            cases pl with
            | zero =>
                simp only [offsetAt] at ihh ⊢
                simp at ihh ⊢
                omega
            | succ l =>
                rw [if_neg (by omega : ¬ l + 1 = 0)]
                simp only [offsetAt] at ihh ⊢
                rw [if_neg hc]
                omega

theorem segBal_add (o c : Char) (text : List Char) (i m n : Nat) :
    segBal o c text i (m + n) = segBal o c text i m + segBal o c text (i + m) n := by
  induction m generalizing i with
  | zero => simp [segBal]
  | succ m ih =>
      have : m + 1 + n = (m + n) + 1 := by omega
      simp only [segBal, Nat.add_eq, Nat.succ_add, segBal]
      rw [ih (i + 1)]
      have : i + (m + 1) = i + 1 + m := by omega
      rw [this]
      ring

theorem segBal_succ_right (o c : Char) (text : List Char) (i n : Nat) :
    segBal o c text i (n + 1) = segBal o c text i n + balStep o c (text.getD (i + n) ' ') := by
  rw [segBal_add o c text i n 1]
  simp [segBal]

theorem balStep_open {o c ch : Char} (h : ch = o) : balStep o c ch = 1 := by
  simp [balStep, h]

theorem balStep_close {o c ch : Char} (h1 : ch ≠ o) (h2 : ch = c) :
    balStep o c ch = -1 := by
  simp [balStep, h2, h2 ▸ h1]

theorem balStep_other {o c ch : Char} (h1 : ch ≠ o) (h2 : ch ≠ c) :
    balStep o c ch = 0 := by
  simp [balStep, h1, h2]

theorem segBal_step (o c : Char) (text : List Char) (i n : Nat) :
    segBal o c text i (n + 1) =
      balStep o c (text.getD i ' ') + segBal o c text (i + 1) n := rfl

theorem drop_cons_facts {α : Type} {d : α} {text : List α} {pos : Nat} {ch : α}
    {rest : List α} (h : text.drop pos = ch :: rest) :
    text.getD pos d = ch ∧ text.drop (pos + 1) = rest ∧ pos < text.length := by
  have hlt : pos < text.length := by
    by_contra hc
    push_neg at hc
    rw [List.drop_eq_nil_of_le hc] at h
    exact List.noConfusion h
  refine ⟨?_, ?_, hlt⟩
  · have h0 : (text.drop pos).getD 0 d = ch := by rw [h]; rfl
    rwa [List.getD_eq_getD_get?, List.get?_drop, Nat.add_zero,
      ← List.getD_eq_getD_get?] at h0
  · have : text.drop (pos + 1) = (text.drop pos).drop 1 := by
      rw [List.drop_drop]
    rw [this, h]
    rfl

/-- Soundness of `findMatchingClosingChar` when entered at positive depth:
if it reports a match `m`, then `m` carries the closing character, the
signed balance of `[pos, m]` cancels the entry depth, and the depth stayed
at least `1` throughout. -/
theorem matchForwardAux_sound {text : List Char} {o c : Char} :
    ∀ (l : List Char) (pos : Nat) (d : Int) (m : Nat),
      l = text.drop pos → 1 ≤ d →
      matchForwardAux o c l pos d = some m →
      ∃ k, m = pos + k ∧ m < text.length ∧ text.getD m ' ' = c ∧
        d + segBal o c text pos (k + 1) = 0 ∧
        ∀ j, j ≤ k → 1 ≤ d + segBal o c text pos j := by
  intro l
  induction l with
  | nil => intro pos d m _ _ hm; exact absurd hm (by simp [matchForwardAux])
  | cons ch rest ih =>
      intro pos d m hdrop hd hm
      obtain ⟨hgd, hrest, hlt⟩ := drop_cons_facts hdrop.symm
      simp only [matchForwardAux] at hm
      by_cases ho : ch = o
      · rw [if_pos ho] at hm
        obtain ⟨k, hk, hmlt, hmc, hbal, hinv⟩ :=
          ih (pos + 1) (d + 1) m hrest.symm (by omega) hm
        have hbs : balStep o c (text.getD pos ' ') = 1 := by rw [hgd]; exact balStep_open ho
        refine ⟨k + 1, by omega, hmlt, hmc, ?_, ?_⟩
        · rw [segBal_step, hbs]; omega
        · intro j hj
          cases j with
          | zero => simpa [segBal] using hd
          | succ j' =>
              have := hinv j' (by omega)
              rw [segBal_step, hbs]; omega
      · rw [if_neg ho] at hm
        have hne : ch ≠ o := ho
        by_cases hc : ch = c
        · rw [if_pos hc] at hm
          have hbs : balStep o c (text.getD pos ' ') = -1 := by
            rw [hgd]; exact balStep_close hne hc
          by_cases hone : d - 1 = 0
          · rw [if_pos hone] at hm
            injection hm with hm
            refine ⟨0, by omega, by rw [← hm]; exact hlt, ?_, ?_, ?_⟩
            · rw [← hm, hgd, hc]
            · rw [segBal_step, hbs]
              simp only [segBal]
              omega
            · intro j hj
              have : j = 0 := by omega
              subst this
              simpa [segBal] using hd
          · rw [if_neg hone] at hm
            obtain ⟨k, hk, hmlt, hmc, hbal, hinv⟩ :=
              ih (pos + 1) (d - 1) m hrest.symm (by omega) hm
            refine ⟨k + 1, by omega, hmlt, hmc, ?_, ?_⟩
            · rw [segBal_step, hbs]; omega
            · intro j hj
              cases j with
              | zero => simpa [segBal] using hd
              | succ j' =>
                  have := hinv j' (by omega)
                  rw [segBal_step, hbs]; omega
        · rw [if_neg hc] at hm
          have hbs : balStep o c (text.getD pos ' ') = 0 := by
            rw [hgd]; exact balStep_other hne hc
          obtain ⟨k, hk, hmlt, hmc, hbal, hinv⟩ :=
            ih (pos + 1) d m hrest.symm hd hm
          refine ⟨k + 1, by omega, hmlt, hmc, ?_, ?_⟩
          · rw [segBal_step, hbs]; omega
          · intro j hj
            cases j with
            | zero => simpa [segBal] using hd
            | succ j' =>
                have := hinv j' (by omega)
                rw [segBal_step, hbs]; omega

/-- The descending loop of `findMatchingOpeningChar`, entered anywhere
inside the already-matched span with the correct running depth, reaches the
opening position `s` and returns it. -/
theorem matchBackward_loop {text : List Char} {o c : Char} {s m : Nat}
    (hoc : o ≠ c)
    (hs : text.getD s ' ' = o)
    (hbal : segBal o c text (s + 1) (m - s) = -1)
    (hinv : ∀ j, j < m - s → 0 ≤ segBal o c text (s + 1) j) :
    ∀ t, t ≤ m - s →
      matchBackward text c o (s + t) (-(segBal o c text (s + t + 1) (m - s - t))) = some s := by
  intro t
  induction t with
  | zero =>
      intro _
      rw [Nat.add_zero, Nat.sub_zero, hbal]
      have hneg : -(-1 : Int) = 1 := by norm_num
      rw [hneg]
      cases s with
      | zero =>
          simp only [matchBackward]
          rw [if_pos ⟨hs, by norm_num⟩]
      | succ p =>
          simp only [matchBackward]
          rw [if_pos ⟨hs, by norm_num⟩]
  | succ t ih =>
      intro ht
      have ht' : t < m - s := by omega
      have hsplit : segBal o c text (s + 1) (m - s) =
          segBal o c text (s + 1) (t + 1) + segBal o c text (s + t + 2) (m - s - (t + 1)) := by
        have h1 : m - s = (t + 1) + (m - s - (t + 1)) := by omega
        rw [h1, segBal_add]
        have h2 : s + 1 + (t + 1) = s + t + 2 := by omega
        rw [h2]
        have h3 : (t + 1) + (m - s - (t + 1)) - (t + 1) = m - s - (t + 1) := by omega
        rw [h3]
      have hsr : segBal o c text (s + 1) (t + 1) =
          segBal o c text (s + 1) t + balStep o c (text.getD (s + 1 + t) ' ') :=
        segBal_succ_right o c text (s + 1) t
      show matchBackward text c o (s + t + 1)
        (-(segBal o c text (s + t + 2) (m - s - (t + 1)))) = some s
      simp only [matchBackward]
      have hnotret : ¬(text.getD (s + t + 1) ' ' = o ∧
          -(segBal o c text (s + t + 2) (m - s - (t + 1))) - 1 = 0) := by
        rintro ⟨hop, hdep⟩
        have hstep1 : balStep o c (text.getD (s + 1 + t) ' ') = 1 := by
          have h6 : text.getD (s + 1 + t) ' ' = o := by
            rw [show s + 1 + t = s + t + 1 by omega]
            exact hop
          exact balStep_open h6
        have hpos : 0 ≤ segBal o c text (s + 1) t := hinv t ht'
        omega
      rw [if_neg hnotret]
      have hupd : (if text.getD (s + t + 1) ' ' = c then
            -(segBal o c text (s + t + 2) (m - s - (t + 1))) + 1
          else if text.getD (s + t + 1) ' ' = o then
            -(segBal o c text (s + t + 2) (m - s - (t + 1))) - 1
          else -(segBal o c text (s + t + 2) (m - s - (t + 1)))) =
          -(segBal o c text (s + t + 1) (m - s - t)) := by
        have hstep : segBal o c text (s + t + 1) (m - s - t) =
            balStep o c (text.getD (s + t + 1) ' ') + segBal o c text (s + t + 2) (m - s - (t + 1)) := by
          have h4 : m - s - t = (m - s - (t + 1)) + 1 := by omega
          rw [h4]
          exact segBal_step o c text (s + t + 1) (m - s - (t + 1))
        by_cases hc1 : text.getD (s + t + 1) ' ' = c
        · rw [if_pos hc1, hstep, balStep_close (by rw [hc1]; exact fun h => hoc h.symm) hc1]
          ring
        · rw [if_neg hc1]
          by_cases hc2 : text.getD (s + t + 1) ' ' = o
          · rw [if_pos hc2, hstep, balStep_open hc2]
            ring
          · rw [if_neg hc2, hstep, balStep_other hc2 hc1]
            ring
      rw [hupd]
      exact ih (by omega)

/-- `findMatchingOpeningChar`, started at the closing position found by
`findMatchingClosingChar`, returns the original opening position. -/
theorem matchBackward_complete {text : List Char} {o c : Char} {s m : Nat}
    (hoc : o ≠ c) (hsm : s ≤ m)
    (hs : text.getD s ' ' = o)
    (hbal : segBal o c text (s + 1) (m - s) = -1)
    (hinv : ∀ j, j < m - s → 0 ≤ segBal o c text (s + 1) j) :
    matchBackward text c o m 0 = some s := by
  have h := matchBackward_loop hoc hs hbal hinv (m - s) (le_refl _)
  have h1 : s + (m - s) = m := by omega
  have h2 : m - s - (m - s) = 0 := by omega
  rw [h1, h2] at h
  simpa [segBal] using h

theorem drop_eq_getD_cons {text : List Char} {pos : Nat} (h : pos < text.length) :
    text.drop pos = text.getD pos ' ' :: text.drop (pos + 1) := by
  rw [List.getD_eq_getElem text ' ' h]
  exact List.drop_eq_getElem_cons h

theorem identEndAux_ge : ∀ (l : List Char) (pos : Nat), pos ≤ identEndAux l pos := by
  intro l
  induction l with
  | nil => intro pos; simp [identEndAux]
  | cons ch rest ih =>
      intro pos
      simp only [identEndAux]
      by_cases h : isIdentChar ch
      · rw [if_pos h]; exact le_trans (by omega) (ih (pos + 1))
      · rw [if_neg h]

theorem identEndAux_le : ∀ (l : List Char) (pos : Nat), identEndAux l pos ≤ pos + l.length := by
  intro l
  induction l with
  | nil => intro pos; simp [identEndAux]
  | cons ch rest ih =>
      intro pos
      simp only [identEndAux, List.length_cons]
      by_cases h : isIdentChar ch
      · rw [if_pos h]; exact le_trans (ih (pos + 1)) (by omega)
      · rw [if_neg h]; omega

theorem identEndAux_ident {text : List Char} :
    ∀ (l : List Char) (pos : Nat), l = text.drop pos →
      ∀ j, pos ≤ j → j < identEndAux l pos → isIdentChar (text.getD j ' ') = true := by
  intro l
  induction l with
  | nil => intro pos _ j h1 h2; simp [identEndAux] at h2; omega
  | cons ch rest ih =>
      intro pos hdrop j h1 h2
      obtain ⟨hgd, hrest, _⟩ := drop_cons_facts hdrop.symm
      simp only [identEndAux] at h2
      by_cases h : isIdentChar ch
      · rw [if_pos h] at h2
        rcases Nat.eq_or_lt_of_le h1 with heq | hlt
        · rw [← heq, hgd]; exact h
        · exact ih (pos + 1) hrest.symm j hlt h2
      · rw [if_neg h] at h2; omega

theorem identStart_eq {text : List Char} {s : Nat}
    (hside : s = 0 ∨ isIdentChar (text.getD (s - 1) ' ') = false) :
    ∀ k, s ≤ k → (∀ j, s ≤ j → j ≤ k → isIdentChar (text.getD j ' ') = true) →
      identStart text k = s := by
  intro k
  induction k with
  | zero =>
      intro hk _
      have : s = 0 := by omega
      simp [identStart, this]
  | succ p ih =>
      intro hk hall
      simp only [identStart]
      rcases Nat.eq_or_lt_of_le hk with heq | hlt
      · rcases hside with h0 | hni
        · omega
        · rw [heq] at hni
          simp only [Nat.add_sub_cancel] at hni
          rw [hni]
          simp [heq]
      · have hip : isIdentChar (text.getD p ' ') = true := hall p (by omega) (by omega)
        rw [hip]
        simp only [if_pos rfl]
        exact ih (by omega) (fun j hj1 hj2 => hall j hj1 (by omega))

theorem closing_not_ident {ch : Char} (h : isClosingChar ch = true) :
    isIdentChar ch = false := by
  simp only [isClosingChar, Bool.or_eq_true, decide_eq_true_eq] at h
  rcases h with (h | h) | h <;> subst h <;> decide

theorem opening_matching_closing {o : Char} (h : isOpeningChar o = true) :
    isClosingChar (matchingPair o) = true ∧ matchingPair (matchingPair o) = o ∧
      matchingPair o ≠ o := by
  simp only [isOpeningChar, Bool.or_eq_true, decide_eq_true_eq] at h
  rcases h with (h | h) | h <;> subst h <;> exact ⟨by decide, by decide, by decide⟩

/-- Characterization of a successful forward scan: the returned unit starts
at or after the scan position and is either a matched delimiter group or an
identifier run. -/
theorem findForwardAux_sound {text : List Char} :
    ∀ (l : List Char) (pos s e : Nat), l = text.drop pos →
      findForwardAux text l pos = some (s, e) →
      pos ≤ s ∧ s < text.length ∧
        ((isOpeningChar (text.getD s ' ') = true ∧
          matchForward text (text.getD s ' ') (matchingPair (text.getD s ' ')) s 0 = some (e - 1) ∧
          1 ≤ e) ∨
         (isIdentChar (text.getD s ' ') = true ∧ isOpeningChar (text.getD s ' ') = false ∧
          e = identEnd text s)) := by
  intro l
  induction l with
  | nil => intro pos s e _ hm; exact absurd hm (by simp [findForwardAux])
  | cons ch rest ih =>
      intro pos s e hdrop hm
      obtain ⟨hgd, hrest, hlt⟩ := drop_cons_facts hdrop.symm
      simp only [findForwardAux] at hm
      by_cases ho : isOpeningChar ch = true
      · rw [if_pos ho] at hm
        rcases hmf : matchForward text ch (matchingPair ch) pos 0 with _ | endPos
        · rw [hmf] at hm
          obtain ⟨h1, h2, h3⟩ := ih (pos + 1) s e hrest.symm hm
          exact ⟨by omega, h2, h3⟩
        · rw [hmf] at hm
          injection hm with hm
          injection hm with hm1 hm2
          subst hm1
          refine ⟨le_refl _, hlt, Or.inl ⟨by rw [hgd]; exact ho, ?_, by omega⟩⟩
          rw [hgd]
          have : endPos = e - 1 := by omega
          rw [← this]
          exact hmf
      · rw [if_neg ho] at hm
        by_cases hi : isIdentChar ch = true
        · rw [if_pos hi] at hm
          injection hm with hm
          injection hm with hm1 hm2
          subst hm1
          refine ⟨le_refl _, hlt, Or.inr ⟨by rw [hgd]; exact hi, ?_, hm2.symm⟩⟩
          rw [hgd]
          exact Bool.not_eq_true _ ▸ ho
        · rw [if_neg hi] at hm
          obtain ⟨h1, h2, h3⟩ := ih (pos + 1) s e hrest.symm hm
          exact ⟨by omega, h2, h3⟩

theorem findBackwardAux_ident {text : List Char} {pos : Nat}
    (h : isIdentChar (text.getD pos ' ') = true) :
    findBackwardAux text pos = some (identStart text pos, pos + 1) := by
  have hcl : isClosingChar (text.getD pos ' ') = false := by
    cases hx : isClosingChar (text.getD pos ' ') with
    | false => rfl
    | true => rw [closing_not_ident hx] at h; exact Bool.noConfusion h
  cases pos with
  | zero =>
      simp only [findBackwardAux]
      rw [hcl, if_neg Bool.false_ne_true, h, if_pos rfl]
  | succ p =>
      simp only [findBackwardAux]
      rw [hcl, if_neg Bool.false_ne_true, h, if_pos rfl]

theorem findBackwardAux_closing {text : List Char} {pos sp : Nat}
    (hcl : isClosingChar (text.getD pos ' ') = true)
    (hmb : matchBackward text (text.getD pos ' ') (matchingPair (text.getD pos ' ')) pos 0 =
      some sp) :
    findBackwardAux text pos = some (sp, pos + 1) := by
  cases pos with
  | zero =>
      simp only [findBackwardAux]
      rw [hcl, if_pos rfl, hmb]
  | succ p =>
      simp only [findBackwardAux]
      rw [hcl, if_pos rfl, hmb]

/-- Main property of a successful forward scan: the unit is a well-ordered
span inside the text, and — provided its start is not glued to a preceding
identifier character — scanning backward from its end recovers exactly the
same span. -/
theorem findForwardFrom_main {text : List Char} {p s e : Nat}
    (hf : findForwardFrom text p = some (s, e)) :
    p ≤ s ∧ s < e ∧ e ≤ text.length ∧
      ((s = 0 ∨ isIdentChar (text.getD (s - 1) ' ') = false) →
        findBackwardSexpOff text e = some (s, e)) := by
  unfold findForwardFrom at hf
  obtain ⟨hps, hslt, hcase⟩ := findForwardAux_sound (text.drop p) p s e rfl hf
  rcases hcase with ⟨ho, hmf, he1⟩ | ⟨hi, _, hee⟩
  · -- delimiter group
    obtain ⟨hcl, hmm, hne⟩ := opening_matching_closing ho
    unfold matchForward at hmf
    rw [drop_eq_getD_cons hslt] at hmf
    simp only [matchForwardAux, if_pos rfl] at hmf
    obtain ⟨k, hk, hmlt, hmc, hbal, hinv⟩ :=
      matchForwardAux_sound (text.drop (s + 1)) (s + 1) (0 + 1) (e - 1) rfl
        (by norm_num) hmf
    have he : e = s + k + 2 := by omega
    have hmb := @matchBackward_complete text (text.getD s ' ')
      (matchingPair (text.getD s ' ')) s (e - 1)
      (fun hx => hne hx.symm) (by omega) rfl
      (by rw [show e - 1 - s = k + 1 by omega]; omega)
      (fun j hj => by
        have := hinv j (by omega)
        omega)
    have hmc' : isClosingChar (text.getD (e - 1) ' ') = true := by rw [hmc]; exact hcl
    have hmb' : matchBackward text (text.getD (e - 1) ' ')
        (matchingPair (text.getD (e - 1) ' ')) (e - 1) 0 = some s := by
      rw [hmc, hmm]; exact hmb
    have hbk := findBackwardAux_closing hmc' hmb'
    refine ⟨hps, by omega, by omega, fun _ => ?_⟩
    obtain ⟨e', rfl⟩ : ∃ e', e = e' + 1 := ⟨e - 1, by omega⟩
    simp only [findBackwardSexpOff]
    simp only [Nat.add_sub_cancel] at hbk
    exact hbk
  · -- identifier run
    have heA : e = identEndAux (text.drop s) s := hee
    have heB : e = identEndAux (text.drop (s + 1)) (s + 1) := by
      rw [heA, drop_eq_getD_cons hslt]
      simp only [identEndAux]
      rw [hi, if_pos rfl]
    have hse : s + 1 ≤ e := by rw [heB]; exact identEndAux_ge _ _
    have hel : e ≤ text.length := by
      have h1 := identEndAux_le (text.drop (s + 1)) (s + 1)
      rw [List.length_drop] at h1
      omega
    have hident : ∀ j, s ≤ j → j < e → isIdentChar (text.getD j ' ') = true :=
      fun j h1 h2 => identEndAux_ident (text.drop s) s rfl j h1 (heA ▸ h2)
    refine ⟨hps, by omega, hel, fun hside => ?_⟩
    have hie : isIdentChar (text.getD (e - 1) ' ') = true :=
      hident (e - 1) (by omega) (by omega)
    have hbk := findBackwardAux_ident hie
    have hst : identStart text (e - 1) = s :=
      identStart_eq hside (e - 1) (by omega) (fun j h1 h2 => hident j h1 (by omega))
    obtain ⟨e', rfl⟩ : ∃ e', e = e' + 1 := ⟨e - 1, by omega⟩
    simp only [findBackwardSexpOff]
    simp only [Nat.add_sub_cancel] at hbk hst
    rw [hbk, hst]

theorem positionAt_le_length (text : List Char) (off : Nat) :
    (positionAt text off).line ≤ text.length := by
  induction text generalizing off with
  | nil => cases off <;> simp [positionAt]
  | cons c cs ih =>
      cases off with
      | zero => simp [positionAt]
      | succ o =>
          simp only [positionAt]
          by_cases hc : c = '\n'
          · simp only [hc, if_pos rfl, List.length_cons]
            exact Nat.succ_le_succ (ih o)
          · rw [if_neg hc]
            by_cases hl : (positionAt cs o).line = 0
            · simp [hl]
            · rw [if_neg hl]
              exact Nat.le_succ_of_le (ih o)

theorem length_extract {text : List Char} {s e : Nat} (h1 : s ≤ e) (h2 : e ≤ text.length) :
    (extract text s e).length = e - s := by
  simp only [extract, List.length_drop, List.length_take]
  omega

theorem take_append_extract {text : List Char} {s e : Nat} (h : s ≤ e) :
    text.take s ++ extract text s e = text.take e := by
  have h1 : (text.take e).take s = text.take s := by
    rw [List.take_take]
    congr 1
    omega
  calc text.take s ++ extract text s e
      = (text.take e).take s ++ (text.take e).drop s := by rw [h1]; rfl
    _ = text.take e := List.take_append_drop _ _

theorem extract_glue {text : List Char} {s m e : Nat} (h1 : s ≤ m) (h2 : m ≤ e)
    (h3 : m ≤ text.length) :
    extract text s m ++ extract text m e = extract text s e := by
  have hte : text.take e = text.take m ++ extract text m e := (take_append_extract h2).symm
  have hlm : (text.take m).length = m := by rw [List.length_take]; omega
  show (text.take m).drop s ++ extract text m e = (text.take e).drop s
  rw [hte, List.drop_append_eq_append_drop, hlm, show s - m = 0 by omega, List.drop_zero]

theorem extract_full_decomp {text : List Char} {sa ea sb eb : Nat}
    (h1 : sa ≤ ea) (h2 : ea ≤ sb) (h3 : sb ≤ eb) (h4 : eb ≤ text.length) :
    text.take sa ++ (extract text sa ea ++ (extract text ea sb ++
      (extract text sb eb ++ text.drop eb))) = text := by
  rw [← List.append_assoc (extract text sa ea)]
  rw [extract_glue h1 h2 (by omega)]
  rw [← List.append_assoc (extract text sa sb)]
  rw [extract_glue (le_trans h1 h2) h3 (by omega)]
  rw [← List.append_assoc (text.take sa)]
  rw [take_append_extract (by omega)]
  exact List.take_append_drop _ _

theorem extract_block (pre mid post : List Char) :
    extract (pre ++ (mid ++ post)) pre.length (pre.length + mid.length) = mid := by
  unfold extract
  rw [List.take_append_eq_append_take,
    List.take_of_length_le (by omega : pre.length ≤ pre.length + mid.length),
    show pre.length + mid.length - pre.length = mid.length by omega,
    List.take_append_eq_append_take,
    List.take_of_length_le (le_refl mid.length),
    show mid.length - mid.length = 0 by omega]
  simp only [List.take_zero, List.append_nil]
  exact List.drop_left pre mid

/-- Net effect of `transposeSexpressions` on the buffer text: whichever
branch runs (two replaces when adjacent, one combined replace otherwise),
the span `[a.start, b.end)` is replaced by `textB ++ separator ++ textA`,
where the separator is the literal text between the two units. -/
theorem transposeNewText_eq {text : List Char} {a b : SexpBoundary} {sa ea sb eb : Nat}
    (hsa : offsetAtPos text a.startPos = sa) (hea : offsetAtPos text a.endPos = ea)
    (hsb : offsetAtPos text b.startPos = sb) (heb : offsetAtPos text b.endPos = eb)
    (h1 : sa ≤ ea) (h2 : ea ≤ sb) (h3 : sb ≤ eb) (h4 : eb ≤ text.length)
    (Hord : a.startPos.isBefore b.startPos = true) :
    transposeNewText text a b =
      text.take sa ++ (extract text sb eb ++ (extract text ea sb ++
        (extract text sa ea ++ text.drop eb))) := by
  have hob : orderBoundaries a b = (a, b) := by
    unfold orderBoundaries
    rw [Hord, if_pos rfl]
  unfold transposeNewText transposeEdits getSpaceBetween
  rw [hob]
  by_cases hadj : a.endLine = b.startLine ∧ a.endChar = b.startChar
  · rw [if_pos hadj]
    unfold applyEditsRL getTextB
    simp only [List.map_cons, List.map_nil, List.foldr_cons, List.foldr_nil]
    rw [hsa, hea, hsb, heb]
    unfold replaceOff
    have hl1 : (text.take sb).length = sb := by rw [List.length_take]; omega
    have htake : (text.take sb ++ (extract text sa ea ++ text.drop eb)).take sa
        = text.take sa := by
      rw [List.take_append_eq_append_take, show sa - (text.take sb).length = 0 by omega,
        List.take_zero, List.append_nil, List.take_take, Nat.min_def]
      rw [if_pos (by omega : sa ≤ sb)]
    have hdrop : (text.take sb ++ (extract text sa ea ++ text.drop eb)).drop ea
        = extract text ea sb ++ (extract text sa ea ++ text.drop eb) := by
      rw [List.drop_append_eq_append_drop, hl1, show ea - sb = 0 by omega, List.drop_zero]
      rfl
    -- the separator `extract text ea sb` may be nonempty only when the
    -- line/column adjacency test fired at unequal offsets; the formula holds
    -- in every case
    simp only [List.append_assoc]
    rw [htake, hdrop]
  · rw [if_neg hadj]
    unfold applyEditsRL getTextB
    simp only [List.map_cons, List.map_nil, List.foldr_cons, List.foldr_nil]
    have hcs : offsetAtPos text
        (SexpBoundary.startPos ⟨a.startLine, a.startChar, b.endLine, b.endChar⟩) = sa := hsa
    have hce : offsetAtPos text
        (SexpBoundary.endPos ⟨a.startLine, a.startChar, b.endLine, b.endChar⟩) = eb := heb
    rw [hcs, hce, hsa, hea, hsb, heb]
    unfold replaceOff
    simp [List.append_assoc]

theorem transposeNewText_length {text : List Char} {a b : SexpBoundary} {sa ea sb eb : Nat}
    (hsa : offsetAtPos text a.startPos = sa) (hea : offsetAtPos text a.endPos = ea)
    (hsb : offsetAtPos text b.startPos = sb) (heb : offsetAtPos text b.endPos = eb)
    (h1 : sa ≤ ea) (h2 : ea ≤ sb) (h3 : sb ≤ eb) (h4 : eb ≤ text.length)
    (Hord : a.startPos.isBefore b.startPos = true) :
    (transposeNewText text a b).length = text.length := by
  rw [transposeNewText_eq hsa hea hsb heb h1 h2 h3 h4 Hord]
  rw [List.length_append, List.length_append, List.length_append, List.length_append]
  rw [length_extract h3 h4, length_extract h2 (by omega), length_extract h1 (by omega)]
  rw [List.length_take, List.length_drop]
  omega

/-- C1, counterexample: for the buffer `"ab"` and the textually adjacent
boundaries `[0,1)` and `[1,2)`, `getSpaceBetween` returns `null` and
`transposeSexpressions` queues **two** `replace` calls inside its edit
transaction, not one — refuting the claim that the single-replace behaviour
also holds for adjacent units. -/
theorem transpose_single_replace_counterexample :
    getSpaceBetween "ab".data ⟨0, 0, 0, 1⟩ ⟨0, 1, 0, 2⟩ = none ∧
    (transposeEdits "ab".data ⟨0, 0, 0, 1⟩ ⟨0, 1, 0, 2⟩).length = 2 ∧
    (2 : Nat) ≠ 1 := by decide

/-- C1 (amended): for non-overlapping boundaries `a.end ≤ b.start` that are
not textually adjacent, `transposeSexpressions` queues exactly one replace,
of the combined span `[a.start, b.end)`, with `textB ++ separator ++ textA`;
when the boundaries are adjacent it instead queues two replaces
(`a.range ↦ textB`, `b.range ↦ textA`) inside the same edit transaction.
In both cases the net buffer text replaces `[a.start, b.end)` by
`textB ++ separator ++ textA` and the cursor lands at `a.start`. -/
theorem transpose_replace (text : List Char) (a b : SexpBoundary) (sa ea sb eb : Nat)
    (hsa : offsetAtPos text a.startPos = sa) (hea : offsetAtPos text a.endPos = ea)
    (hsb : offsetAtPos text b.startPos = sb) (heb : offsetAtPos text b.endPos = eb)
    (h1 : sa ≤ ea) (h2 : ea ≤ sb) (h3 : sb ≤ eb) (h4 : eb ≤ text.length)
    (Hord : a.startPos.isBefore b.startPos = true) :
    (∀ sp, getSpaceBetween text a b = some sp →
        transposeEdits text a b =
          [(⟨a.startLine, a.startChar, b.endLine, b.endChar⟩,
            getTextB text b ++ sp ++ getTextB text a)]) ∧
    (getSpaceBetween text a b = none →
        transposeEdits text a b = [(a, getTextB text b), (b, getTextB text a)]) ∧
    transposeNewText text a b =
      text.take sa ++ (extract text sb eb ++ (extract text ea sb ++
        (extract text sa ea ++ text.drop eb))) ∧
    transposeCursor a b = a.startPos := by
  refine ⟨?_, ?_, transposeNewText_eq hsa hea hsb heb h1 h2 h3 h4 Hord, rfl⟩
  · intro sp hsp
    unfold transposeEdits
    rw [hsp]
  · intro hsp
    unfold transposeEdits
    rw [hsp]

/-- Witness for `transpose_replace`: swapping `(a)` and `(b)` in the buffer
`"(a) (b)"` produces `"(b) (a)"` with the cursor at the origin. -/
theorem transpose_replace_witness :
    transposeNewText "(a) (b)".data ⟨0, 0, 0, 3⟩ ⟨0, 4, 0, 7⟩ = "(b) (a)".data ∧
    transposeCursor ⟨0, 0, 0, 3⟩ ⟨0, 4, 0, 7⟩ = (⟨0, 0⟩ : Pos) := by
  have T := transpose_replace "(a) (b)".data ⟨0, 0, 0, 3⟩ ⟨0, 4, 0, 7⟩ 0 3 4 7
    (by decide) (by decide) (by decide) (by decide) (by decide) (by decide)
    (by decide) (by decide) (by decide)
  exact ⟨T.2.2.1.trans (by decide), T.2.2.2⟩

/-- C2: the swap is an involution on the buffer text.  Swapping `a` and `b`
and then swapping again with the post-swap boundaries (`b2`: the relocated
second unit, starting at `a`'s old start; `a2`: the relocated first unit)
restores the original buffer text exactly; the separator is relocated
verbatim. -/
theorem swap_involution (text : List Char) (a b b2 a2 : SexpBoundary)
    (sa ea sb eb : Nat)
    (hsa : offsetAtPos text a.startPos = sa) (hea : offsetAtPos text a.endPos = ea)
    (hsb : offsetAtPos text b.startPos = sb) (heb : offsetAtPos text b.endPos = eb)
    (h1 : sa ≤ ea) (h2 : ea ≤ sb) (h3 : sb ≤ eb) (h4 : eb ≤ text.length)
    (Hord : a.startPos.isBefore b.startPos = true)
    (Hord2 : b2.startPos.isBefore a2.startPos = true)
    (hsb2 : offsetAtPos (transposeNewText text a b) b2.startPos = sa)
    (heb2 : offsetAtPos (transposeNewText text a b) b2.endPos = sa + (eb - sb))
    (hsa2 : offsetAtPos (transposeNewText text a b) a2.startPos = sa + (eb - sb) + (sb - ea))
    (hea2 : offsetAtPos (transposeNewText text a b) a2.endPos = eb) :
    transposeNewText (transposeNewText text a b) b2 a2 = text := by
  set P := text.take sa with hPdef
  set X := extract text sb eb with hXdef
  set Y := extract text ea sb with hYdef
  set Z := extract text sa ea with hZdef
  set S := text.drop eb with hSdef
  have hD1 : transposeNewText text a b = P ++ (X ++ (Y ++ (Z ++ S))) :=
    transposeNewText_eq hsa hea hsb heb h1 h2 h3 h4 Hord
  have hlenD1 : (transposeNewText text a b).length = text.length :=
    transposeNewText_length hsa hea hsb heb h1 h2 h3 h4 Hord
  have hP : P.length = sa := by rw [hPdef, List.length_take]; omega
  have hX : X.length = eb - sb := by rw [hXdef]; exact length_extract h3 h4
  have hY : Y.length = sb - ea := by rw [hYdef]; exact length_extract h2 (by omega)
  have hZ : Z.length = ea - sa := by rw [hZdef]; exact length_extract h1 (by omega)
  have hmain := @transposeNewText_eq (transposeNewText text a b) b2 a2 _ _ _ _
    hsb2 heb2 hsa2 hea2 (by omega) (by omega) (by omega) (by rw [hlenD1]; exact h4) Hord2
  -- block computations on the decomposed first result
  have htake : (transposeNewText text a b).take sa = P := by
    rw [hD1]; exact List.take_left' hP
  have hdrop : (transposeNewText text a b).drop eb = S := by
    have hassoc : P ++ (X ++ (Y ++ (Z ++ S))) = (P ++ (X ++ (Y ++ Z))) ++ S := by
      simp [List.append_assoc]
    have hlen : (P ++ (X ++ (Y ++ Z))).length = eb := by
      simp only [List.length_append, hP, hX, hY, hZ]
      omega
    rw [hD1, hassoc]
    exact List.drop_left' hlen
  have hblockX : extract (transposeNewText text a b) sa (sa + (eb - sb)) = X := by
    have hb := extract_block P X (Y ++ (Z ++ S))
    rw [hD1]
    convert hb using 2 <;> simp only [List.length_append, hP, hX, hY, hZ] <;> omega
  have hblockY : extract (transposeNewText text a b) (sa + (eb - sb))
      (sa + (eb - sb) + (sb - ea)) = Y := by
    have hassoc : P ++ (X ++ (Y ++ (Z ++ S))) = (P ++ X) ++ (Y ++ (Z ++ S)) := by
      simp [List.append_assoc]
    have hb := extract_block (P ++ X) Y (Z ++ S)
    rw [hD1, hassoc]
    convert hb using 2 <;> simp only [List.length_append, hP, hX, hY, hZ] <;> omega
  have hblockZ : extract (transposeNewText text a b) (sa + (eb - sb) + (sb - ea)) eb = Z := by
    have hassoc : P ++ (X ++ (Y ++ (Z ++ S))) = (P ++ (X ++ Y)) ++ (Z ++ S) := by
      simp [List.append_assoc]
    have hb := extract_block (P ++ (X ++ Y)) Z S
    rw [hD1, hassoc]
    convert hb using 2 <;> simp only [List.length_append, hP, hX, hY, hZ] <;> omega
  rw [hmain, htake, hdrop, hblockX, hblockY, hblockZ]
  rw [hPdef, hXdef, hYdef, hZdef, hSdef]
  exact extract_full_decomp h1 h2 h3 h4

/-- Witness for `swap_involution`: swapping `(a)` and `(b)` in `"(a) (b)"`
and swapping back with the post-swap boundaries restores `"(a) (b)"`. -/
theorem swap_involution_witness :
    transposeNewText (transposeNewText "(a) (b)".data ⟨0, 0, 0, 3⟩ ⟨0, 4, 0, 7⟩)
      ⟨0, 0, 0, 3⟩ ⟨0, 4, 0, 7⟩ = "(a) (b)".data :=
  swap_involution "(a) (b)".data ⟨0, 0, 0, 3⟩ ⟨0, 4, 0, 7⟩ ⟨0, 0, 0, 3⟩ ⟨0, 4, 0, 7⟩
    0 3 4 7 (by decide) (by decide) (by decide) (by decide) (by decide) (by decide)
    (by decide) (by decide) (by decide) (by decide) (by decide) (by decide)
    (by decide) (by decide)

theorem pickSmallest_spec :
    ∀ (l : List SexpBoundary) (b : SexpBoundary), pickSmallest l = some b →
      b ∈ l ∧ ∀ c ∈ l, calculateBoundarySize b ≤ calculateBoundarySize c := by
  have key : ∀ (rest : List SexpBoundary) (init : SexpBoundary),
      (rest.foldl
          (fun best c =>
            if calculateBoundarySize c < calculateBoundarySize best then c else best)
          init = init ∨
        rest.foldl
          (fun best c =>
            if calculateBoundarySize c < calculateBoundarySize best then c else best)
          init ∈ rest) ∧
      calculateBoundarySize
          (rest.foldl
            (fun best c =>
              if calculateBoundarySize c < calculateBoundarySize best then c else best)
            init) ≤ calculateBoundarySize init ∧
      ∀ c ∈ rest,
        calculateBoundarySize
            (rest.foldl
              (fun best c =>
                if calculateBoundarySize c < calculateBoundarySize best then c else best)
              init) ≤ calculateBoundarySize c := by
    intro rest
    induction rest with
    | nil => intro init; exact ⟨Or.inl rfl, le_refl _, fun c hc => absurd hc (by simp)⟩
    | cons c0 rest ih =>
        intro init
        simp only [List.foldl_cons]
        by_cases hlt : calculateBoundarySize c0 < calculateBoundarySize init
        · rw [if_pos hlt]
          obtain ⟨hm, hle, hall⟩ := ih c0
          refine ⟨?_, by omega, ?_⟩
          · rcases hm with hm | hm
            · exact Or.inr (by rw [hm]; exact List.mem_cons_self _ _)
            · exact Or.inr (List.mem_cons_of_mem _ hm)
          · intro c hc
            rcases List.mem_cons.mp hc with rfl | hc
            · exact hle
            · exact hall c hc
        · rw [if_neg hlt]
          obtain ⟨hm, hle, hall⟩ := ih init
          refine ⟨?_, hle, ?_⟩
          · rcases hm with hm | hm
            · exact Or.inl hm
            · exact Or.inr (List.mem_cons_of_mem _ hm)
          · intro c hc
            rcases List.mem_cons.mp hc with rfl | hc
            · omega
            · exact hall c hc
  intro l b h
  cases l with
  | nil => exact Option.noConfusion h
  | cons b0 rest =>
      simp only [pickSmallest] at h
      injection h with h
      obtain ⟨hm, hle, hall⟩ := key rest b0
      subst h
      refine ⟨?_, ?_⟩
      · rcases hm with hm | hm
        · rw [hm]; exact List.mem_cons_self _ _
        · exact List.mem_cons_of_mem _ hm
      · intro c hc
        rcases List.mem_cons.mp hc with rfl | hc
        · exact hle
        · exact hall c hc

theorem mem_findParentCandidates {text : List Char} {pos : Pos}
    {cur : Option SexpBoundary} {b : SexpBoundary}
    (hb : b ∈ findParentCandidates text pos cur) :
    boundaryContainsPosition b pos = true := by
  unfold findParentCandidates at hb
  rw [List.mem_filterMap] at hb
  obtain ⟨i, _, hfn⟩ := hb
  split at hfn
  · split at hfn
    · split_ifs at hfn with hcond
      injection hfn with hfn
      subst hfn
      rw [Bool.and_eq_true] at hcond
      exact hcond.1
    · exact Option.noConfusion hfn
  · exact Option.noConfusion hfn

theorem mem_findParentFiltered_contains {text : List Char} {pos : Pos}
    {cur : Option SexpBoundary} {b : SexpBoundary}
    (hb : b ∈ findParentFiltered text pos cur) :
    boundaryContainsPosition b pos = true := by
  unfold findParentFiltered at hb
  cases cur with
  | none => exact mem_findParentCandidates hb
  | some c => exact mem_findParentCandidates (List.mem_filter.mp hb).1

/-- C3: `findPreviousSibling` starts the enumeration at the parent's own
start position, so the first unit found is the parent itself; the scan then
jumps past the parent and never reaches the current unit.  For the buffer
`"(a b)"`, current unit `b` and parent `(a b)`, the sibling `a` exists
(`forward` at `(0,1)` returns it and its end precedes `current.start`), yet
`findPreviousSibling` returns NotFound instead of `a` — contradicting the
function's own documentation ("Finds the previous sibling expression within
the same parent"). -/
theorem findPreviousSibling_bug :
    findForwardSexp "(a b)".data ⟨0, 3⟩ = some ⟨0, 3, 0, 4⟩ ∧
    findForwardSexp "(a b)".data ⟨0, 0⟩ = some ⟨0, 0, 0, 5⟩ ∧
    findForwardSexp "(a b)".data ⟨0, 1⟩ = some ⟨0, 1, 0, 2⟩ ∧
    findPreviousSibling "(a b)".data ⟨0, 3, 0, 4⟩ ⟨0, 0, 0, 5⟩ = none := by decide

/-- C4, counterexample: for the buffer `"((a))"` and position `(0,2)`, the
procedure described by the claim (enumerate `forward` from every
opening-delimiter character position, minimum under the lexicographic
(line span, column span) order) selects the inner group `(a)`, but
`findParentSexpression` — which scans only line starts and minimizes
`calculateBoundarySize` — returns the outer group `((a))`. -/
theorem findParent_counterexample :
    findParentSexpression "((a))".data ⟨0, 2⟩ none = some ⟨0, 0, 0, 5⟩ ∧
    specFindParent "((a))".data ⟨0, 2⟩ = some ⟨0, 1, 0, 4⟩ ∧
    (⟨0, 0, 0, 5⟩ : SexpBoundary) ≠ ⟨0, 1, 0, 4⟩ := by decide

/-- C4 (amended): `findParentSexpression` enumerates candidates by invoking
the forward scanner at **column 0 of each line from `position.line` up to 50
lines back** (not from every opening-delimiter position), retains those
whose span contains the position inclusively (and, when an exclude boundary
is given, those neither smaller under the size metric nor equal to it), and
returns a retained candidate of minimal `calculateBoundarySize`
(`lineCount * 1000 + endChar + (1000 - startChar)` across lines, character
width within a line), or NotFound when no candidate remains. -/
theorem findParent_minimal (text : List Char) (pos : Pos) (cur : Option SexpBoundary)
    (b : SexpBoundary) (h : findParentSexpression text pos cur = some b) :
    b ∈ findParentFiltered text pos cur ∧
    boundaryContainsPosition b pos = true ∧
    ∀ c ∈ findParentFiltered text pos cur,
      calculateBoundarySize b ≤ calculateBoundarySize c := by
  unfold findParentSexpression at h
  rcases hc : findParentCandidates text pos cur with _ | ⟨c0, rest⟩
  · rw [hc] at h; exact Option.noConfusion h
  · rw [hc] at h
    obtain ⟨hmem, hmin⟩ := pickSmallest_spec _ _ h
    exact ⟨hmem, mem_findParentFiltered_contains hmem, hmin⟩

/-- Witness for `findParent_minimal` at the buffer `"((a))"`. -/
theorem findParent_minimal_witness :
    (⟨0, 0, 0, 5⟩ : SexpBoundary) ∈ findParentFiltered "((a))".data ⟨0, 2⟩ none ∧
    boundaryContainsPosition ⟨0, 0, 0, 5⟩ ⟨0, 2⟩ = true := by
  have H := findParent_minimal "((a))".data ⟨0, 2⟩ none ⟨0, 0, 0, 5⟩ (by decide)
  exact ⟨H.1, H.2.1⟩

theorem pyScan_spec {lines : List (List Char)} {baseLen currentLine : Nat} :
    ∀ (rest : List (List Char)) (line : Nat), rest = lines.drop line → 1 ≤ line →
      (∀ t, line ≤ t → t < lines.length →
        ((isBlankLine (lines.getD t []) || trimStartsWithHash (lines.getD t [])) = false ∧
          (pyGetIndentation (lines.getD t [])).length ≤ baseLen) →
        (∀ j, line ≤ j → j < t →
          ¬((isBlankLine (lines.getD j []) || trimStartsWithHash (lines.getD j [])) = false ∧
            (pyGetIndentation (lines.getD j [])).length ≤ baseLen)) →
        pyScan lines.length baseLen currentLine rest line =
          (if currentLine + 1 ≤ t then some (t - 1) else none)) ∧
      ((∀ j, line ≤ j → j < lines.length →
          ¬((isBlankLine (lines.getD j []) || trimStartsWithHash (lines.getD j [])) = false ∧
            (pyGetIndentation (lines.getD j [])).length ≤ baseLen)) →
        pyScan lines.length baseLen currentLine rest line =
          (if currentLine + 1 ≤ lines.length then some (lines.length - 1) else none)) := by
  intro rest
  induction rest with
  | nil =>
      intro line hdrop _
      have hlen : lines.length ≤ line := by
        have h2 : lines.drop line = [] := hdrop.symm
        rw [List.drop_eq_nil_iff_le] at h2
        exact h2
      constructor
      · intro t ht1 ht2 _ _
        omega
      · intro _
        rfl
  | cons lt rest ih =>
      intro line hdrop hline
      obtain ⟨hgd, hrest, hlt⟩ := drop_cons_facts hdrop.symm
      obtain ⟨ih1, ih2⟩ := ih (line + 1) hrest.symm (by omega)
      by_cases hskip : (isBlankLine lt || trimStartsWithHash lt) = true
      · have hnotterm : ¬((isBlankLine (lines.getD line []) ||
            trimStartsWithHash (lines.getD line [])) = false ∧
            (pyGetIndentation (lines.getD line [])).length ≤ baseLen) := by
          rw [hgd]
          rintro ⟨hf, _⟩
          rw [hskip] at hf
          exact Bool.noConfusion hf
        constructor
        · intro t ht1 ht2 hterm hmin
          have htne : line ≠ t := fun he => hnotterm (he ▸ hterm)
          simp only [pyScan]
          rw [hskip, if_pos rfl]
          exact ih1 t (by omega) ht2 hterm (fun j hj1 hj2 => hmin j (by omega) hj2)
        · intro hnone
          simp only [pyScan]
          rw [hskip, if_pos rfl]
          exact ih2 (fun j hj1 hj2 => hnone j (by omega) hj2)
      · have hskip' : (isBlankLine lt || trimStartsWithHash lt) = false := by
          revert hskip
          cases isBlankLine lt || trimStartsWithHash lt <;> simp
        have hnb : isBlankLine lt = false := by
          revert hskip'
          cases h1 : isBlankLine lt <;> cases h2 : trimStartsWithHash lt <;> simp
        by_cases hind : (pyGetIndentation lt).length ≤ baseLen
        · -- the scope terminates at this line
          have hterml : (isBlankLine (lines.getD line []) ||
              trimStartsWithHash (lines.getD line [])) = false ∧
              (pyGetIndentation (lines.getD line [])).length ≤ baseLen := by
            rw [hgd]; exact ⟨hskip', hind⟩
          have heval : pyScan lines.length baseLen currentLine (lt :: rest) line =
              (if currentLine ≤ line - 1 then some (line - 1) else none) := by
            simp only [pyScan]
            rw [hskip', if_neg Bool.false_ne_true]
            rw [if_pos (by simp [hnb, hind])]
          constructor
          · intro t ht1 ht2 hterm hmin
            have htl : t = line := by
              by_contra hne
              exact hmin line (le_refl _) (by omega) hterml
            subst htl
            rw [heval]
            by_cases hcu : currentLine + 1 ≤ t
            · rw [if_pos hcu, if_pos (by omega)]
            · rw [if_neg hcu, if_neg (by omega)]
          · intro hnone
            exact absurd hterml (hnone line (le_refl _) hlt)
        · -- deeper indentation: continue
          have hnotterm : ¬((isBlankLine (lines.getD line []) ||
              trimStartsWithHash (lines.getD line [])) = false ∧
              (pyGetIndentation (lines.getD line [])).length ≤ baseLen) := by
            rw [hgd]
            rintro ⟨_, hc⟩
            exact hind hc
          have heval : pyScan lines.length baseLen currentLine (lt :: rest) line =
              pyScan lines.length baseLen currentLine rest (line + 1) := by
            simp only [pyScan]
            rw [hskip', if_neg Bool.false_ne_true]
            rw [if_neg (by simp [hind])]
          constructor
          · intro t ht1 ht2 hterm hmin
            have htne : line ≠ t := fun he => hnotterm (he ▸ hterm)
            rw [heval]
            exact ih1 t (by omega) ht2 hterm (fun j hj1 hj2 => hmin j (by omega) hj2)
          · intro hnone
            rw [heval]
            exact ih2 (fun j hj1 hj2 => hnone j (by omega) hj2)

/-- C5, counterexample: for the buffer
`["def f():", "    return 1", "", "x = 2"]` the first terminating line is
line 3 and the last non-blank line before it is line 1, yet the
indentation-based resolver returns line 2, a blank line — refuting "returns
the last non-blank line before the first terminating line". -/
theorem python_scope_end_counterexample :
    pyFindScopeBoundary
        ["def f():".data, "    return 1".data, "".data, "x = 2".data] 0 0 none = some 2 ∧
    isBlankLine
        (["def f():".data, "    return 1".data, "".data, "x = 2".data].getD 2 []) = true ∧
    (2 : Nat) ≠ 1 := by decide

/-- C5 (amended): the indentation-based `resolveScopeEnd`
(`PythonScopeFinder.findScopeBoundary`) scans forward skipping blank and
comment-only lines and returns, as the scope's end, **the line immediately
before** the first line that is neither blank nor comment-only and whose
indentation is at most the declaration line's (that returned line may itself
be blank); if no such terminating line exists the scope extends to the last
line of the buffer.  In particular for `["def f():", "    return 1", "x = 2"]`
starting at line 0 it returns end line 1. -/
theorem python_scope_end (lines : List (List Char)) (startLine currentLine : Nat)
    (hsc : startLine ≤ currentLine) :
    (∀ t, startLine < t → t < lines.length → isPyTerminator lines startLine t →
      (∀ j, startLine < j → j < t → ¬ isPyTerminator lines startLine j) →
      currentLine + 1 ≤ t →
      pyFindScopeBoundary lines startLine currentLine none = some (t - 1)) ∧
    ((∀ j, startLine < j → j < lines.length → ¬ isPyTerminator lines startLine j) →
      currentLine < lines.length →
      pyFindScopeBoundary lines startLine currentLine none = some (lines.length - 1)) := by
  obtain ⟨S1, S2⟩ := @pyScan_spec lines
    (pyGetIndentation (lines.getD startLine [])).length
    currentLine (lines.drop (startLine + 1)) (startLine + 1) rfl (by omega)
  have hred : pyFindScopeBoundary lines startLine currentLine none =
      pyScan lines.length (pyGetIndentation (lines.getD startLine [])).length currentLine
        (lines.drop (startLine + 1)) (startLine + 1) := by
    simp only [pyFindScopeBoundary]
    rw [if_neg (by omega)]
  constructor
  · intro t ht1 ht2 ht3 hmin hcu
    unfold isPyTerminator at ht3 hmin
    rw [hred, S1 t (by omega) ht2 ht3 (fun j hj1 hj2 => hmin j (by omega) hj2), if_pos hcu]
  · intro hnone hcur
    unfold isPyTerminator at hnone
    rw [hred, S2 (fun j hj1 hj2 => hnone j (by omega) hj2), if_pos (by omega)]

/-- Witness for `python_scope_end`: Scenario 4 of the specification — the
buffer `["def f():", "    return 1", "x = 2"]` resolved from line 0 ends at
line 1. -/
theorem python_scope_end_witness :
    pyFindScopeBoundary ["def f():".data, "    return 1".data, "x = 2".data] 0 0 none
      = some 1 :=
  (python_scope_end ["def f():".data, "    return 1".data, "x = 2".data] 0 0
      (le_refl 0)).1 2 (by decide) (by decide) (by decide)
    (fun j h1 h2 => by
      have hj : j = 1 := by omega
      subst hj
      decide)
    (by decide)

theorem lineBalance_open (l : List Char) : lineBalance ('{' :: l) = 1 + lineBalance l := rfl

theorem lineBalance_close (l : List Char) : lineBalance ('}' :: l) = -1 + lineBalance l := rfl

theorem lineBalance_other {ch : Char} (h1 : ch ≠ '{') (h2 : ch ≠ '}') (l : List Char) :
    lineBalance (ch :: l) = lineBalance l := by
  simp [lineBalance, h1, h2]

theorem tsScanLine_inl_iff :
    ∀ (l : List Char) (cnt : Int) (found : Bool), (found = false → cnt ≤ 0) →
      (tsScanLine l cnt found = Sum.inl () ↔
        ∃ k, k < l.length ∧ l.getD k ' ' = '}' ∧ cnt + lineBalance (l.take k) = 1) := by
  intro l
  induction l with
  | nil =>
      intro cnt found _
      simp [tsScanLine]
  | cons ch rest ih =>
      intro cnt found hinv
      by_cases hob : ch = '{'
      · subst hob
        simp only [tsScanLine]
        rw [if_pos trivial, ih (cnt + 1) true (by intro h; exact Bool.noConfusion h)]
        constructor
        · rintro ⟨k, hk, hgd, hbal⟩
          refine ⟨k + 1, by simpa using hk, by simpa using hgd, ?_⟩
          simp only [List.take_succ_cons, lineBalance_open]
          omega
        · rintro ⟨k, hk, hgd, hbal⟩
          cases k with
          | zero =>
              rw [List.getD_cons_zero] at hgd
              exact absurd hgd (by decide)
          | succ k' =>
              refine ⟨k', by simpa using hk, by simpa using hgd, ?_⟩
              simp only [List.take_succ_cons, lineBalance_open] at hbal
              omega
      · by_cases hcb : ch = '}'
        · subst hcb
          simp only [tsScanLine]
          rw [if_neg (by decide : ¬('}' : Char) = '{'), if_pos trivial]
          by_cases hret : found = true ∧ cnt - 1 = 0
          · rw [if_pos hret]
            obtain ⟨hf, hc⟩ := hret
            constructor
            · intro _
              refine ⟨0, by simp, by simp, ?_⟩
              simp only [List.take_zero, lineBalance]
              omega
            · intro _
              rfl
          · rw [if_neg hret]
            rw [ih (cnt - 1) found (fun h => by have := hinv h; omega)]
            constructor
            · rintro ⟨k, hk, hgd, hbal⟩
              refine ⟨k + 1, by simpa using hk, by simpa using hgd, ?_⟩
              simp only [List.take_succ_cons, lineBalance_close]
              omega
            · rintro ⟨k, hk, hgd, hbal⟩
              cases k with
              | zero =>
                  exfalso
                  simp only [List.take_zero, lineBalance] at hbal
                  have hf : found = true := by
                    cases hfv : found with
                    | false => exfalso; have := hinv hfv; omega
                    | true => rfl
                  exact hret ⟨hf, by omega⟩
              | succ k' =>
                  refine ⟨k', by simpa using hk, by simpa using hgd, ?_⟩
                  simp only [List.take_succ_cons, lineBalance_close] at hbal
                  omega
        · simp only [tsScanLine, if_neg hob, if_neg hcb]
          rw [ih cnt found hinv]
          constructor
          · rintro ⟨k, hk, hgd, hbal⟩
            refine ⟨k + 1, by simpa using hk, by simpa using hgd, ?_⟩
            simp only [List.take_succ_cons, lineBalance_other hob hcb]
            omega
          · rintro ⟨k, hk, hgd, hbal⟩
            cases k with
            | zero =>
                exfalso
                rw [List.getD_cons_zero] at hgd
                exact hcb hgd
            | succ k' =>
                refine ⟨k', by simpa using hk, by simpa using hgd, ?_⟩
                simp only [List.take_succ_cons, lineBalance_other hob hcb] at hbal
                omega

theorem tsScanLine_inr_facts :
    ∀ (l : List Char) (cnt : Int) (found : Bool) (cnt' : Int) (found' : Bool),
      (found = false → cnt ≤ 0) →
      tsScanLine l cnt found = Sum.inr (cnt', found') →
      cnt' = cnt + lineBalance l ∧ (found' = false → cnt' ≤ 0) := by
  intro l
  induction l with
  | nil =>
      intro cnt found cnt' found' hinv h
      simp only [tsScanLine, Sum.inr.injEq, Prod.mk.injEq] at h
      obtain ⟨h1, h2⟩ := h
      subst h1
      subst h2
      exact ⟨by simp [lineBalance], hinv⟩
  | cons ch rest ih =>
      intro cnt found cnt' found' hinv h
      by_cases hob : ch = '{'
      · subst hob
        simp only [tsScanLine] at h
        rw [if_pos trivial] at h
        obtain ⟨h1, h2⟩ := ih (cnt + 1) true cnt' found' (fun hf => Bool.noConfusion hf) h
        refine ⟨?_, h2⟩
        simp only [lineBalance_open]
        omega
      · by_cases hcb : ch = '}'
        · subst hcb
          simp only [tsScanLine] at h
          rw [if_neg (by decide : ¬('}' : Char) = '{'), if_pos trivial] at h
          by_cases hret : found = true ∧ cnt - 1 = 0
          · rw [if_pos hret] at h
            exact Sum.noConfusion h
          · rw [if_neg hret] at h
            obtain ⟨h1, h2⟩ := ih (cnt - 1) found cnt' found'
              (fun hf => by have := hinv hf; omega) h
            refine ⟨?_, h2⟩
            simp only [lineBalance_close]
            omega
        · simp only [tsScanLine, if_neg hob, if_neg hcb] at h
          obtain ⟨h1, h2⟩ := ih cnt found cnt' found' hinv h
          refine ⟨?_, h2⟩
          simp only [lineBalance_other hob hcb]
          omega

theorem tsGo_spec {lines : List (List Char)} {currentLine : Nat} :
    ∀ (rest : List (List Char)) (i : Nat) (cnt : Int) (found : Bool),
      rest = lines.drop i → (found = false → cnt ≤ 0) →
      (∀ e, i ≤ e → e < lines.length →
        (∃ k < (lines.getD e []).length, (lines.getD e []).getD k ' ' = '}' ∧
          cnt + cumBalance lines i (e - i) +
            lineBalance ((lines.getD e []).take k) = 1) →
        (∀ e', i ≤ e' → e' < e →
          ¬ ∃ k < (lines.getD e' []).length, (lines.getD e' []).getD k ' ' = '}' ∧
            cnt + cumBalance lines i (e' - i) +
              lineBalance ((lines.getD e' []).take k) = 1) →
        tsGo currentLine rest i cnt found = if currentLine ≤ e then some e else none) ∧
      ((∀ e, i ≤ e → e < lines.length →
          ¬ ∃ k < (lines.getD e []).length, (lines.getD e []).getD k ' ' = '}' ∧
            cnt + cumBalance lines i (e - i) +
              lineBalance ((lines.getD e []).take k) = 1) →
        tsGo currentLine rest i cnt found = none) := by
  intro rest
  induction rest with
  | nil =>
      intro i cnt found hdrop _
      have hlen : lines.length ≤ i := by
        have h2 : lines.drop i = [] := hdrop.symm
        rw [List.drop_eq_nil_iff_le] at h2
        exact h2
      exact ⟨fun e he1 he2 _ _ => by omega, fun _ => rfl⟩
  | cons lt rest ih =>
      intro i cnt found hdrop hinv
      obtain ⟨hgd, hrest, hlt⟩ := drop_cons_facts hdrop.symm
      have htrig_i : (∃ k < lt.length, lt.getD k ' ' = '}' ∧
          cnt + lineBalance (lt.take k) = 1) ↔
          (∃ k < (lines.getD i []).length, (lines.getD i []).getD k ' ' = '}' ∧
            cnt + cumBalance lines i (i - i) +
              lineBalance ((lines.getD i []).take k) = 1) := by
        rw [hgd, Nat.sub_self]
        simp only [cumBalance, add_zero]
      rcases hs : tsScanLine lt cnt found with u | cf
      · have hex := (tsScanLine_inl_iff lt cnt found hinv).mp (by rw [hs])
        constructor
        · intro e he1 he2 htrig hmin
          have hei : e = i := by
            by_contra hne
            exact hmin i (le_refl _) (by omega) (htrig_i.mp hex)
          subst hei
          simp only [tsGo]
          rw [hs]
        · intro hnone
          exact absurd (htrig_i.mp hex) (hnone i (le_refl _) hlt)
      · obtain ⟨hcnt2, hinv2⟩ := tsScanLine_inr_facts lt cnt found cf.1 cf.2 hinv
          (by rw [hs])
        obtain ⟨ih1, ih2⟩ := ih (i + 1) cf.1 cf.2 hrest.symm hinv2
        have hnotrig_i : ¬(∃ k < (lines.getD i []).length, (lines.getD i []).getD k ' ' = '}' ∧
            cnt + cumBalance lines i (i - i) +
              lineBalance ((lines.getD i []).take k) = 1) := by
          intro hc
          have := (tsScanLine_inl_iff lt cnt found hinv).mpr (htrig_i.mpr hc)
          rw [hs] at this
          exact Sum.noConfusion this
        have harith : ∀ e, i + 1 ≤ e →
            cnt + cumBalance lines i (e - i) = cf.1 + cumBalance lines (i + 1) (e - (i + 1)) := by
          intro e he
          have h5 : e - i = (e - (i + 1)) + 1 := by omega
          rw [h5]
          show cnt + cumBalance lines i ((e - (i + 1)) + 1) = _
          conv_lhs => rw [show ∀ n, cumBalance lines i (n + 1) =
            lineBalance (lines.getD i []) + cumBalance lines (i + 1) n from fun n => rfl]
          rw [hgd, hcnt2]
          ring
        have htrans : ∀ e, i + 1 ≤ e →
            ((∃ k < (lines.getD e []).length, (lines.getD e []).getD k ' ' = '}' ∧
              cnt + cumBalance lines i (e - i) +
                lineBalance ((lines.getD e []).take k) = 1) ↔
            (∃ k < (lines.getD e []).length, (lines.getD e []).getD k ' ' = '}' ∧
              cf.1 + cumBalance lines (i + 1) (e - (i + 1)) +
                lineBalance ((lines.getD e []).take k) = 1)) := by
          intro e he
          refine exists_congr fun k => and_congr_right fun _ => and_congr_right fun _ => ?_
          rw [harith e he]
        have heval : tsGo currentLine (lt :: rest) i cnt found =
            tsGo currentLine rest (i + 1) cf.1 cf.2 := by
          simp only [tsGo]
          rw [hs]
        constructor
        · intro e he1 he2 htrig hmin
          have hne : e ≠ i := by
            intro he
            exact hnotrig_i (he ▸ htrig)
          rw [heval]
          exact ih1 e (by omega) he2 ((htrans e (by omega)).mp htrig)
            (fun e' h1 h2 => fun hc =>
              hmin e' (by omega) h2 ((htrans e' (by omega)).mpr hc))
        · intro hnone
          rw [heval]
          exact ih2 (fun e h1 h2 => fun hc =>
            hnone e (by omega) h2 ((htrans e (by omega)).mpr hc))

/-- C6: the brace-based `resolveScopeEnd`
(`TypeScriptScopeFinder.findScopeBoundary`) returns the first line on which
the running `{`/`}` counter, started at the declaration line, transitions to
exactly zero on a `}` after having been positive (it is `1`, hence positive,
just before that `}`); for a declaration containing nested declarations at
deeper brace depth this is the line where balance returns to the
declaration's own level, never a nested closing line (those leave the
counter positive, hence trigger on no earlier line); if the end of the
buffer is reached without balance it returns NotFound. -/
theorem ts_scope_end (lines : List (List Char)) (startLine : Nat) :
    (∀ e, startLine ≤ e → e < lines.length → tsTriggerLine lines startLine e →
      (∀ e', startLine ≤ e' → e' < e → ¬ tsTriggerLine lines startLine e') →
      tsFindScopeBoundary lines startLine startLine = some e) ∧
    ((∀ e, startLine ≤ e → e < lines.length → ¬ tsTriggerLine lines startLine e) →
      tsFindScopeBoundary lines startLine startLine = none) := by
  obtain ⟨S1, S2⟩ := @tsGo_spec lines startLine
    (lines.drop startLine) startLine 0 false rfl (fun _ => le_refl 0)
  simp only [zero_add] at S1 S2
  constructor
  · intro e he1 he2 htrig hmin
    unfold tsTriggerLine at htrig hmin
    unfold tsFindScopeBoundary
    rw [S1 e he1 he2 htrig hmin, if_pos he1]
  · intro hnone
    unfold tsTriggerLine at hnone
    unfold tsFindScopeBoundary
    exact S2 hnone

/-- Witness for `ts_scope_end`: the scope opened on line 0 of
`["function f() {", "  return 1;", "}"]` ends on line 2, and a buffer with
an unterminated brace resolves to NotFound. -/
theorem ts_scope_end_witness :
    tsFindScopeBoundary
      ["function f() \x7b".data, "  return 1;".data, "\x7d".data] 0 0 = some 2 ∧
    tsFindScopeBoundary ["function f() \x7b".data, "  return 1;".data] 0 0 = none := by
  constructor
  · exact (ts_scope_end
      ["function f() \x7b".data, "  return 1;".data, "\x7d".data] 0).1 2
      (by decide) (by decide) (by decide)
      (fun e' h1 h2 => by interval_cases e' <;> decide)
  · exact (ts_scope_end ["function f() \x7b".data, "  return 1;".data] 0).2
      (fun e h1 h2 => by
        have hu : e < 2 := by simpa using h2
        interval_cases e <;> decide)

theorem flatText_cons (l : List Char) (rest : List (List Char)) :
    flatText (l :: rest) = l ++ flatText rest := rfl

theorem flatLineStart_succ (lines : List (List Char)) :
    ∀ i, flatLineStart lines (i + 1) =
      flatLineStart lines i + (lines.getD i []).length := by
  induction lines with
  | nil => intro i; cases i <;> simp [flatLineStart]
  | cons l rest ih =>
      intro i
      cases i with
      | zero => simp [flatLineStart]
      | succ i' => simp only [flatLineStart, List.getD_cons_succ, ih i']; omega

theorem flatLineStart_mono (lines : List (List Char)) {i i' : Nat} (h : i ≤ i') :
    flatLineStart lines i ≤ flatLineStart lines i' := by
  induction i' with
  | zero => simp [Nat.le_zero.mp h]
  | succ n ih =>
      rcases Nat.eq_or_lt_of_le h with rfl | hlt
      · exact le_refl _
      · exact le_trans (ih (by omega)) (by rw [flatLineStart_succ]; omega)

theorem flatLineStart_ge_length (lines : List (List Char)) :
    ∀ i, lines.length ≤ i → flatLineStart lines i = (flatText lines).length := by
  induction lines with
  | nil => intro i _; cases i <;> simp [flatLineStart, flatText]
  | cons l rest ih =>
      intro i hi
      cases i with
      | zero => simp at hi
      | succ i' =>
          simp only [flatLineStart, flatText_cons, List.length_append]
          rw [ih i' (by simpa using hi)]

theorem flatText_drop (lines : List (List Char)) :
    ∀ i, (flatText lines).drop (flatLineStart lines i) = flatText (lines.drop i) := by
  induction lines with
  | nil => intro i; cases i <;> simp [flatText, flatLineStart]
  | cons l rest ih =>
      intro i
      cases i with
      | zero => simp [flatLineStart]
      | succ i' =>
          simp only [flatText_cons, flatLineStart, List.drop_succ_cons]
          rw [List.drop_append_eq_append_drop, List.drop_of_length_le (by omega),
            List.nil_append, show l.length + flatLineStart rest i' - l.length =
              flatLineStart rest i' by omega]
          exact ih i'

theorem flatText_getD (lines : List (List Char)) {i j : Nat}
    (hi : i < lines.length) (hj : j < (lines.getD i []).length) :
    (flatText lines).getD (flatIdxP lines i j) ' ' = (lines.getD i []).getD j ' ' := by
  have hdc : lines.drop i = (lines.getD i []) :: lines.drop (i + 1) := by
    obtain ⟨x, rest, hx⟩ : ∃ x rest, lines.drop i = x :: rest := by
      rcases hd : lines.drop i with _ | ⟨x, rest⟩
      · rw [List.drop_eq_nil_iff_le] at hd; omega
      · exact ⟨x, rest, rfl⟩
    obtain ⟨hg, hr, _⟩ := drop_cons_facts hx
    rw [hx, hg, hr]
  have h1 : (flatText lines).getD (flatIdxP lines i j) ' ' =
      ((flatText lines).drop (flatLineStart lines i)).getD j ' ' := by
    rw [List.getD_eq_getD_get?, List.getD_eq_getD_get?, List.get?_drop]
    rfl
  rw [h1, flatText_drop, hdc]
  show ((lines.getD i [] ++ flatText (lines.drop (i + 1))).getD j ' ') = _
  rw [List.getD_eq_getD_get?, List.get?_append hj, ← List.getD_eq_getD_get?]

theorem flatToPos_eq (lines : List (List Char)) :
    ∀ {i j : Nat}, i < lines.length → j < (lines.getD i []).length →
      flatToPos lines (flatIdxP lines i j) = (i, j) := by
  induction lines with
  | nil => intro i j hi _; simp at hi
  | cons l rest ih =>
      intro i j hi hj
      cases i with
      | zero =>
          simp only [flatIdxP, flatLineStart, Nat.zero_add, flatToPos]
          rw [if_pos (by simpa using hj)]
      | succ i' =>
          simp only [flatIdxP, flatLineStart, flatToPos]
          rw [if_neg (by omega)]
          have := @ih i' j (by simpa using hi) (by simpa using hj)
          simp only [flatIdxP] at this
          rw [show l.length + flatLineStart rest i' + j - l.length =
            flatLineStart rest i' + j by omega, this]

theorem flat_surj (lines : List (List Char)) :
    ∀ {n : Nat}, n < (flatText lines).length →
      ∃ i j, i < lines.length ∧ j < (lines.getD i []).length ∧
        flatIdxP lines i j = n ∧ flatToPos lines n = (i, j) := by
  induction lines with
  | nil => intro n hn; simp [flatText] at hn
  | cons l rest ih =>
      intro n hn
      by_cases hl : n < l.length
      · exact ⟨0, n, by simp, by simpa using hl,
          by simp [flatIdxP, flatLineStart], by simp [flatToPos, hl]⟩
      · have hn' : n - l.length < (flatText rest).length := by
          rw [flatText_cons, List.length_append] at hn
          omega
        obtain ⟨i, j, h1, h2, h3, h4⟩ := ih hn'
        refine ⟨i + 1, j, by simpa using h1, by simpa using h2, ?_, ?_⟩
        · simp only [flatIdxP, flatLineStart]
          simp only [flatIdxP] at h3
          omega
        · simp only [flatToPos]
          rw [if_neg hl, h4]

theorem backCond_transfer (F : List Char) {p i : Nat} (hip : i ≤ p) (d : Int) :
    (backCond F (p + 1) i d ↔
      backCond F p i (d - balStep '{' '}' (F.getD (p + 1) ' '))) := by
  unfold backCond
  have h1 : p + 1 - i = (p - i) + 1 := by omega
  have h2 : i + 1 + (p - i) = p + 1 := by omega
  rw [h1, segBal_succ_right, h2]
  constructor
  · rintro ⟨hc, hb⟩; exact ⟨hc, by omega⟩
  · rintro ⟨hc, hb⟩; exact ⟨hc, by omega⟩

theorem cbBack1_spec (F : List Char) :
    ∀ p d,
      (∀ x, cbBack1 F p d = some x →
        x ≤ p ∧ backCond F p x d ∧ ∀ i, x < i → i ≤ p → ¬ backCond F p i d) ∧
      (cbBack1 F p d = none → ∀ i, i ≤ p → ¬ backCond F p i d) := by
  intro p
  induction p with
  | zero =>
      intro d
      constructor
      · intro x hx
        unfold cbBack1 at hx
        split_ifs at hx with h1 h2 h3
        · cases hx
          have hd : d = 0 := by omega
          exact ⟨le_refl 0, ⟨h2, by simp [segBal, hd]⟩,
            fun i hi1 hi2 => by omega⟩
      · intro hn i hi
        have hi0 : i = 0 := Nat.le_zero.mp hi
        subst hi0
        rintro ⟨hc, hb⟩
        simp only [Nat.sub_self, segBal] at hb
        unfold cbBack1 at hn
        rw [hc, if_neg (by decide), if_pos rfl,
          if_pos (show d - 1 = -1 by omega)] at hn
        exact Option.noConfusion hn
  | succ p ih =>
      intro d
      constructor
      · intro x hx
        unfold cbBack1 at hx
        split_ifs at hx with h1 h2 h3
        · -- character is a closing brace: recurse with stack + 1
          obtain ⟨hle, hcond, hmin⟩ := (ih (d + 1)).1 x hx
          have hstep : balStep '{' '}' (F.getD (p + 1) ' ') = -1 :=
            balStep_close (by rw [h1]; decide) h1
          refine ⟨by omega, ?_, ?_⟩
          · exact (backCond_transfer F hle d).mpr (by rw [hstep]; simpa using hcond)
          · intro i hi1 hi2
            rcases Nat.lt_or_ge i (p + 1) with hlt | hge
            · intro hc
              exact hmin i hi1 (by omega)
                (by have := (@backCond_transfer F p i (by omega) d).mp hc
                    rw [hstep] at this; simpa using this)
            · have : i = p + 1 := by omega
              subst this
              rintro ⟨hc, _⟩
              rw [hc] at h1; exact absurd h1 (by decide)
        · -- character is an opening brace and the stack hits -1: stop here
          cases hx
          have hd : d = 0 := by omega
          refine ⟨le_refl _, ⟨h2, ?_⟩, fun i hi1 hi2 => by omega⟩
          simp [Nat.sub_self, segBal, hd]
        · -- opening brace, stack does not hit -1: recurse with stack - 1
          obtain ⟨hle, hcond, hmin⟩ := (ih (d - 1)).1 x hx
          have hstep : balStep '{' '}' (F.getD (p + 1) ' ') = 1 := balStep_open h2
          refine ⟨by omega, ?_, ?_⟩
          · exact (backCond_transfer F hle d).mpr (by rw [hstep]; simpa using hcond)
          · intro i hi1 hi2
            rcases Nat.lt_or_ge i (p + 1) with hlt | hge
            · intro hc
              exact hmin i hi1 (by omega)
                (by have := (@backCond_transfer F p i (by omega) d).mp hc
                    rw [hstep] at this; simpa using this)
            · have : i = p + 1 := by omega
              subst this
              rintro ⟨_, hb⟩
              simp only [Nat.sub_self, segBal] at hb
              omega
        · -- not a bracket: recurse with the same stack
          obtain ⟨hle, hcond, hmin⟩ := (ih d).1 x hx
          have hstep : balStep '{' '}' (F.getD (p + 1) ' ') = 0 :=
            balStep_other h2 h1
          refine ⟨by omega, ?_, ?_⟩
          · exact (backCond_transfer F hle d).mpr (by rw [hstep]; simpa using hcond)
          · intro i hi1 hi2
            rcases Nat.lt_or_ge i (p + 1) with hlt | hge
            · intro hc
              exact hmin i hi1 (by omega)
                (by have := (@backCond_transfer F p i (by omega) d).mp hc
                    rw [hstep] at this; simpa using this)
            · have : i = p + 1 := by omega
              subst this
              rintro ⟨hc, _⟩
              exact h2 hc
      · intro hn i hi
        unfold cbBack1 at hn
        split_ifs at hn with h1 h2 h3
        · have hstep : balStep '{' '}' (F.getD (p + 1) ' ') = -1 :=
            balStep_close (by rw [h1]; decide) h1
          rcases Nat.lt_or_ge i (p + 1) with hlt | hge
          · intro hc
            exact (ih (d + 1)).2 hn i (by omega)
              (by have := (@backCond_transfer F p i (by omega) d).mp hc
                  rw [hstep] at this; simpa using this)
          · have : i = p + 1 := by omega
            subst this
            rintro ⟨hc, _⟩
            rw [hc] at h1; exact absurd h1 (by decide)
        · have hstep : balStep '{' '}' (F.getD (p + 1) ' ') = 1 := balStep_open h2
          rcases Nat.lt_or_ge i (p + 1) with hlt | hge
          · intro hc
            exact (ih (d - 1)).2 hn i (by omega)
              (by have := (@backCond_transfer F p i (by omega) d).mp hc
                  rw [hstep] at this; simpa using this)
          · have : i = p + 1 := by omega
            subst this
            rintro ⟨_, hb⟩
            simp only [Nat.sub_self, segBal] at hb
            omega
        · have hstep : balStep '{' '}' (F.getD (p + 1) ' ') = 0 :=
            balStep_other h2 h1
          rcases Nat.lt_or_ge i (p + 1) with hlt | hge
          · intro hc
            exact (ih d).2 hn i (by omega)
              (by have := (@backCond_transfer F p i (by omega) d).mp hc
                  rw [hstep] at this; simpa using this)
          · have : i = p + 1 := by omega
            subst this
            rintro ⟨hc, _⟩
            exact h2 hc

/-- If no index in `(x, e1]` satisfies the stop condition with stack `0`,
the suffix balances over `(i, e1]` are all non-positive for `i ≥ x`. -/
theorem scanBack_nonpos (F : List Char) (x e1 : Nat)
    (hmin : ∀ i, x < i → i ≤ e1 → ¬ backCond F e1 i 0) :
    ∀ i, x ≤ i → i ≤ e1 → segBal '{' '}' F (i + 1) (e1 - i) ≤ 0 := by
  have key : ∀ n i, x ≤ i → i ≤ e1 → e1 - i = n →
      segBal '{' '}' F (i + 1) (e1 - i) ≤ 0 := by
    intro n
    induction n with
    | zero => intro i _ _ hn; rw [hn]; simp [segBal]
    | succ n ihn =>
        intro i hxi hie hn
        have hstep : segBal '{' '}' F (i + 1) (e1 - i) =
            balStep '{' '}' (F.getD (i + 1) ' ') +
              segBal '{' '}' F (i + 2) n := by
          rw [hn, segBal_step]
        have htail : segBal '{' '}' F (i + 2) n ≤ 0 := by
          have := ihn (i + 1) (by omega) (by omega) (by omega)
          rw [show e1 - (i + 1) = n by omega,
            show i + 1 + 1 = i + 2 by omega] at this
          exact this
        by_cases hc : F.getD (i + 1) ' ' = '{'
        · rcases lt_or_ge (segBal '{' '}' F (i + 2) n) 0 with hneg | hz
          · rw [hstep, balStep_open hc]; omega
          · have htz : segBal '{' '}' F (i + 2) n = 0 := by omega
            exact absurd ⟨hc, by rw [show e1 - (i + 1) = n by omega]; exact htz⟩
              (hmin (i + 1) (by omega) (by omega))
        · have : balStep '{' '}' (F.getD (i + 1) ' ') ≤ 0 := by
            by_cases hc2 : F.getD (i + 1) ' ' = '}'
            · rw [balStep_close hc hc2]; omega
            · rw [balStep_other hc hc2]
          rw [hstep]; omega
  intro i h1 h2
  exact key (e1 - i) i h1 h2 rfl

/-- From an opening brace whose forward prefixes stay non-negative up to
`N` but whose balance over `(x, c]` is negative, the first dip below zero
yields a closing brace forming a well-formed pair with `x`, beyond `N`. -/
theorem firstDip_pair (F : List Char) (x N n₀ : Nat)
    (hx : F.getD x ' ' = '{')
    (hpos : ∀ j, j ≤ N → 0 ≤ segBal '{' '}' F (x + 1) j)
    (hdip : segBal '{' '}' F (x + 1) n₀ ≤ -1) :
    ∃ cx, wfpFlat F x cx ∧ x + N < cx ∧ cx ≤ x + n₀ := by
  classical
  have hex : ∃ n, segBal '{' '}' F (x + 1) n ≤ -1 := ⟨n₀, hdip⟩
  let Q : Nat → Prop := fun n => segBal '{' '}' F (x + 1) n ≤ -1
  have hQ : ∃ n, Q n := hex
  let nstar := Nat.find hQ
  have hQn : Q nstar := Nat.find_spec hQ
  have hQmin : ∀ m, m < nstar → ¬ Q m := fun m hm => Nat.find_min hQ hm
  have hns_le : nstar ≤ n₀ := Nat.find_min' hQ hdip
  have hnpos : 1 ≤ nstar := by
    rcases Nat.eq_zero_or_pos nstar with h0 | h1
    · exfalso
      have := hQn
      rw [h0] at this
      simp only [Q, segBal] at this
      omega
    · exact h1
  obtain ⟨m, hm⟩ : ∃ m, nstar = m + 1 := ⟨nstar - 1, by omega⟩
  have hprev : 0 ≤ segBal '{' '}' F (x + 1) m := by
    have := hQmin m (by omega)
    simp only [Q] at this
    omega
  have hsucc : segBal '{' '}' F (x + 1) (m + 1) =
      segBal '{' '}' F (x + 1) m + balStep '{' '}' (F.getD (x + 1 + m) ' ') :=
    segBal_succ_right _ _ _ _ _
  have hQval : segBal '{' '}' F (x + 1) (m + 1) ≤ -1 := by
    have := hQn; rw [hm] at this; exact this
  have hstep_neg : balStep '{' '}' (F.getD (x + 1 + m) ' ') ≤ -1 := by omega
  have hclose : F.getD (x + 1 + m) ' ' = '}' := by
    by_contra hcc
    by_cases hoo : F.getD (x + 1 + m) ' ' = '{'
    · rw [balStep_open hoo] at hstep_neg; omega
    · rw [balStep_other hoo hcc] at hstep_neg; omega
  have hstep_val : balStep '{' '}' (F.getD (x + 1 + m) ' ') = -1 :=
    balStep_close (by rw [hclose]; decide) hclose
  have hprev0 : segBal '{' '}' F (x + 1) m = 0 := by
    rw [hsucc, hstep_val] at hQval
    omega
  refine ⟨x + 1 + m, ?_, ?_, by omega⟩
  · refine ⟨by omega, ?_, hx, hclose, ?_, ?_⟩
    · -- x + 1 + m < F.length: the character there is a real brace
      by_contra hge
      push_neg at hge
      rw [List.getD_eq_default _ _ hge] at hclose
      exact absurd hclose (by decide)
    · rw [show x + 1 + m - (x + 1) = m by omega]
      exact hprev0
    · intro j hj
      rw [show x + 1 + m - (x + 1) = m by omega] at hj
      have := hQmin j (by omega)
      simp only [Q] at this
      omega
  · -- the dip lies beyond N because prefixes through N are non-negative
    have : N < m + 1 := by
      by_contra hNm
      push_neg at hNm
      have := hpos (m + 1) (by omega)
      omega
    omega

/-- The backward scan started at flat position `E` (exclusive) with stack
`0` returns exactly the opening of the innermost well-formed pair
straddling `E`. -/
theorem back1_innermost (F : List Char) (o c E : Nat)
    (hwf : wfpFlat F o c) (hoE : o < E) (hEc : E ≤ c)
    (hinner : ∀ o' c', wfpFlat F o' c' → o' < E → E ≤ c' → o' ≤ o) :
    backFrom F E 0 = some o := by
  obtain ⟨hoc, hclen, hob, hcb, hbal, hpre⟩ := hwf
  obtain ⟨e1, rfl⟩ : ∃ e1, E = e1 + 1 := ⟨E - 1, by omega⟩
  show cbBack1 F e1 0 = some o
  rcases hres : cbBack1 F e1 0 with _ | x
  · exfalso
    have hnone := (cbBack1_spec F e1 0).2 hres
    have hnp := scanBack_nonpos F 0 e1 (fun i _ h2 => hnone i h2)
    have h1 : segBal '{' '}' F (o + 1) (e1 - o) ≤ 0 :=
      hnp o (Nat.zero_le o) (by omega)
    have h2 : 0 ≤ segBal '{' '}' F (o + 1) (e1 - o) :=
      hpre (e1 - o) (by omega)
    exact hnone o (by omega) ⟨hob, by omega⟩
  · obtain ⟨hxle, ⟨hxb, hxbal⟩, hxmin⟩ := (cbBack1_spec F e1 0).1 x hres
    have hnp := scanBack_nonpos F x e1 hxmin
    rcases lt_trichotomy x o with hlt | heq | hgt
    · exfalso
      have h1 : segBal '{' '}' F (o + 1) (e1 - o) ≤ 0 := hnp o (by omega) (by omega)
      have h2 : 0 ≤ segBal '{' '}' F (o + 1) (e1 - o) := hpre (e1 - o) (by omega)
      exact hxmin o hlt (by omega) ⟨hob, by omega⟩
    · rw [heq]
    · exfalso
      -- the scan stopped above `o`: its stop position starts a well-formed
      -- pair that also straddles `E`, contradicting innermostness of `o`
      have hprefix : ∀ j, j ≤ e1 - x → 0 ≤ segBal '{' '}' F (x + 1) j := by
        intro j hj
        have hs := segBal_add '{' '}' F (x + 1) j (e1 - x - j)
        rw [show j + (e1 - x - j) = e1 - x by omega] at hs
        have hm := hnp (x + j) (by omega) (by omega)
        rw [show x + j + 1 = x + 1 + j by omega,
          show e1 - (x + j) = e1 - x - j by omega] at hm
        omega
      have hdip : segBal '{' '}' F (x + 1) (c - x) ≤ -1 := by
        have h1 : segBal '{' '}' F (x + 1) (c - x) =
            segBal '{' '}' F (x + 1) (c - (x + 1)) +
              balStep '{' '}' (F.getD c ' ') := by
          rw [show c - x = (c - (x + 1)) + 1 by omega, segBal_succ_right,
            show x + 1 + (c - (x + 1)) = c by omega]
        have hstep : balStep '{' '}' (F.getD c ' ') = -1 :=
          balStep_close (by rw [hcb]; decide) hcb
        have hsplit := segBal_add '{' '}' F (o + 1) (x - o) (c - (x + 1))
        rw [show x - o + (c - (x + 1)) = c - (o + 1) by omega,
          show o + 1 + (x - o) = x + 1 by omega] at hsplit
        have hp : 0 ≤ segBal '{' '}' F (o + 1) (x - o) :=
          hpre (x - o) (by omega)
        omega
      obtain ⟨cx, hcx_wf, hcx_gt, _⟩ :=
        firstDip_pair F x (e1 - x) (c - x) hxb hprefix hdip
      have := hinner x cx hcx_wf (by omega) (by omega)
      omega

/-- The forward scan from just past a well-formed pair's opening brace,
with depth `1`, reaches exactly its closing brace. -/
theorem matchForwardAux_complete (F : List Char) (o c : Nat)
    (hoc : o < c) (hclen : c < F.length) (hcb : F.getD c ' ' = '}')
    (hbal : segBal '{' '}' F (o + 1) (c - (o + 1)) = 0)
    (hpre : ∀ j, j ≤ c - (o + 1) → 0 ≤ segBal '{' '}' F (o + 1) j) :
    matchForwardAux '{' '}' (F.drop (o + 1)) (o + 1) 1 = some c := by
  have key : ∀ n t, t ≤ c - (o + 1) → c - (o + 1) - t = n →
      matchForwardAux '{' '}' (F.drop (o + 1 + t)) (o + 1 + t)
        (1 + segBal '{' '}' F (o + 1) t) = some c := by
    intro n
    induction n with
    | zero =>
        intro t ht hn
        have htv : t = c - (o + 1) := by omega
        subst htv
        rw [hbal, show o + 1 + (c - (o + 1)) = c by omega]
        obtain ⟨ch, rest, hx⟩ : ∃ ch rest, F.drop c = ch :: rest := by
          rcases hd : F.drop c with _ | ⟨ch, rest⟩
          · rw [List.drop_eq_nil_iff] at hd; omega
          · exact ⟨ch, rest, rfl⟩
        obtain ⟨hg, _, _⟩ := drop_cons_facts hx
        rw [hx, show ch = '}' by rw [← hg]; exact hcb]
        simp only [matchForwardAux]
        norm_num
        exact fun h => absurd h (by decide)
    | succ n ihn =>
        intro t ht hn
        have hpos_lt : o + 1 + t < c := by omega
        obtain ⟨ch, rest, hx⟩ : ∃ ch rest, F.drop (o + 1 + t) = ch :: rest := by
          rcases hd : F.drop (o + 1 + t) with _ | ⟨ch, rest⟩
          · rw [List.drop_eq_nil_iff] at hd; omega
          · exact ⟨ch, rest, rfl⟩
        obtain ⟨hg, hr, _⟩ := drop_cons_facts hx
        have hseg : segBal '{' '}' F (o + 1) (t + 1) =
            segBal '{' '}' F (o + 1) t + balStep '{' '}' ch := by
          rw [segBal_succ_right, hg]
        have hrec := ihn (t + 1) (by omega) (by omega)
        rw [show o + 1 + (t + 1) = o + 1 + t + 1 by omega] at hrec
        rw [hx]
        simp only [matchForwardAux]
        by_cases hch1 : ch = '{'
        · rw [if_pos hch1, ← hr]
          rw [show 1 + segBal '{' '}' F (o + 1) t + 1 =
            1 + segBal '{' '}' F (o + 1) (t + 1) by
              rw [hseg, balStep_open hch1]; omega]
          exact hrec
        · by_cases hch2 : ch = '}'
          · rw [if_neg hch1, if_pos hch2]
            have hnz : ¬ (1 + segBal '{' '}' F (o + 1) t - 1 = 0) := by
              intro hz
              have h1 : segBal '{' '}' F (o + 1) t = 0 := by omega
              have h2 : 0 ≤ segBal '{' '}' F (o + 1) (t + 1) :=
                hpre (t + 1) (by omega)
              rw [hseg, balStep_close hch1 hch2, h1] at h2
              omega
            rw [if_neg hnz, ← hr]
            rw [show 1 + segBal '{' '}' F (o + 1) t - 1 =
              1 + segBal '{' '}' F (o + 1) (t + 1) by
                rw [hseg, balStep_close hch1 hch2]; omega]
            exact hrec
          · rw [if_neg hch1, if_neg hch2, ← hr]
            rw [show 1 + segBal '{' '}' F (o + 1) t =
              1 + segBal '{' '}' F (o + 1) (t + 1) by
                rw [hseg, balStep_other hch1 hch2]; omega]
            exact hrec
  have := key (c - (o + 1)) 0 (by omega) (by omega)
  simpa [segBal] using this

theorem getD_open_lt {l : List Char} {i : Nat} (h : l.getD i ' ' = '{') :
    i < l.length := by
  by_contra hc
  push_neg at hc
  rw [List.getD_eq_default _ _ hc] at h
  exact absurd h (by decide)

theorem cbBack1_step_close (F : List Char) (p : Nat) (st : Int)
    (h : F.getD p ' ' = '}') : cbBack1 F p st = backFrom F p (st + 1) := by
  cases p with
  | zero => simp only [cbBack1, backFrom]; rw [h, if_pos rfl]
  | succ p' => simp only [cbBack1, backFrom]; rw [h, if_pos rfl]

theorem cbBack1_step_open_stop (F : List Char) (p : Nat) (st : Int)
    (h : F.getD p ' ' = '{') (hst : st - 1 = -1) : cbBack1 F p st = some p := by
  cases p with
  | zero =>
      simp only [cbBack1]
      rw [h, if_neg (by decide), if_pos rfl, if_pos hst]
  | succ p' =>
      simp only [cbBack1]
      rw [h, if_neg (by decide), if_pos rfl, if_pos hst]

theorem cbBack1_step_open_cont (F : List Char) (p : Nat) (st : Int)
    (h : F.getD p ' ' = '{') (hst : ¬ st - 1 = -1) :
    cbBack1 F p st = backFrom F p (st - 1) := by
  cases p with
  | zero =>
      simp only [cbBack1, backFrom]
      rw [h, if_neg (by decide), if_pos rfl, if_neg hst]
  | succ p' =>
      simp only [cbBack1, backFrom]
      rw [h, if_neg (by decide), if_pos rfl, if_neg hst]

theorem cbBack1_step_other (F : List Char) (p : Nat) (st : Int)
    (h1 : ¬ F.getD p ' ' = '}') (h2 : ¬ F.getD p ' ' = '{') :
    cbBack1 F p st = backFrom F p st := by
  cases p with
  | zero => simp only [cbBack1, backFrom]; rw [if_neg h1, if_neg h2]
  | succ p' => simp only [cbBack1, backFrom]; rw [if_neg h1, if_neg h2]

theorem cbBackChar_nil : ∀ (e : Nat) (st : Int), cbBackChar [] e st = Sum.inr st := by
  intro e
  induction e with
  | zero => intro st; simp [cbBackChar]
  | succ e ih =>
      intro st
      simp only [cbBackChar]
      rw [show ([] : List Char).getD (e + 1) ' ' = ' ' by simp,
        if_neg (by decide), if_neg (by decide)]
      exact ih st

theorem cbBackChar_oob_step (l : List Char) (e : Nat) (st : Int)
    (h : l.length ≤ e + 1) : cbBackChar l (e + 1) st = cbBackChar l e st := by
  have hd : l.getD (e + 1) ' ' = ' ' := List.getD_eq_default _ _ (by omega)
  simp only [cbBackChar]
  rw [hd, if_neg (by decide), if_neg (by decide)]

theorem cbBackChar_oob (l : List Char) :
    ∀ (e : Nat) (st : Int), l.length ≤ e →
      cbBackChar l e st = cbBackChar l (l.length - 1) st := by
  intro e
  induction e with
  | zero =>
      intro st h
      rw [Nat.le_zero.mp h]
  | succ e ih =>
      intro st h
      rcases Nat.eq_or_lt_of_le h with heq | hlt
      · rw [show l.length - 1 = e by omega]
        exact cbBackChar_oob_step l e st (by omega)
      · rw [cbBackChar_oob_step l e st (by omega)]
        exact ih st (by omega)

theorem cbBackChar_inl_facts (l : List Char) :
    ∀ (e : Nat) (st : Int) (ch : Nat), cbBackChar l e st = Sum.inl ch →
      ch ≤ e ∧ l.getD ch ' ' = '{' := by
  intro e
  induction e with
  | zero =>
      intro st ch h
      simp only [cbBackChar] at h
      split_ifs at h with h1 h2 h3
      · cases h
        exact ⟨le_refl 0, h2⟩
  | succ e ih =>
      intro st ch h
      simp only [cbBackChar] at h
      split_ifs at h with h1 h2 h3
      · obtain ⟨ha, hb⟩ := ih (st + 1) ch h
        exact ⟨by omega, hb⟩
      · cases h
        exact ⟨le_refl _, h2⟩
      · obtain ⟨ha, hb⟩ := ih (st - 1) ch h
        exact ⟨by omega, hb⟩
      · obtain ⟨ha, hb⟩ := ih st ch h
        exact ⟨by omega, hb⟩

/-- In-range agreement between one line's backward scan and the flat
backward scan, the line occupying flat indices from `s`. -/
theorem cbBackChar_flat (l F : List Char) (s : Nat)
    (hchar : ∀ j, j < l.length → F.getD (s + j) ' ' = l.getD j ' ') :
    ∀ (e : Nat), e < l.length → ∀ (st : Int),
      (∀ ch, cbBackChar l e st = Sum.inl ch → cbBack1 F (s + e) st = some (s + ch)) ∧
      (∀ st', cbBackChar l e st = Sum.inr st' → cbBack1 F (s + e) st = backFrom F s st') := by
  intro e
  induction e with
  | zero =>
      intro he st
      have hc0 : F.getD (s + 0) ' ' = l.getD 0 ' ' := hchar 0 he
      constructor
      · intro ch h
        simp only [cbBackChar] at h
        split_ifs at h with h1 h2 h3
        · cases h
          exact cbBack1_step_open_stop F (s + 0) st (by rw [hc0]; exact h2) h3
      · intro st' h
        simp only [cbBackChar] at h
        split_ifs at h with h1 h2 h3
        · cases h
          rw [cbBack1_step_close F (s + 0) st (by rw [hc0]; exact h1), Nat.add_zero]
        · cases h
          rw [cbBack1_step_open_cont F (s + 0) st (by rw [hc0]; exact h2) h3,
            Nat.add_zero]
        · cases h
          rw [cbBack1_step_other F (s + 0) st
            (by rw [hc0]; exact h1) (by rw [hc0]; exact h2), Nat.add_zero]
  | succ e ih =>
      intro he st
      have hce : F.getD (s + (e + 1)) ' ' = l.getD (e + 1) ' ' := hchar (e + 1) he
      have he' : e < l.length := by omega
      constructor
      · intro ch h
        simp only [cbBackChar] at h
        split_ifs at h with h1 h2 h3
        · rw [cbBack1_step_close F (s + (e + 1)) st (by rw [hce]; exact h1)]
          show cbBack1 F (s + e) (st + 1) = _
          exact (ih he' (st + 1)).1 ch h
        · cases h
          exact cbBack1_step_open_stop F (s + (e + 1)) st (by rw [hce]; exact h2) h3
        · rw [cbBack1_step_open_cont F (s + (e + 1)) st (by rw [hce]; exact h2) h3]
          show cbBack1 F (s + e) (st - 1) = _
          exact (ih he' (st - 1)).1 ch h
        · rw [cbBack1_step_other F (s + (e + 1)) st
            (by rw [hce]; exact h1) (by rw [hce]; exact h2)]
          show cbBack1 F (s + e) st = _
          exact (ih he' st).1 ch h
      · intro st' h
        simp only [cbBackChar] at h
        split_ifs at h with h1 h2 h3
        · rw [cbBack1_step_close F (s + (e + 1)) st (by rw [hce]; exact h1)]
          show cbBack1 F (s + e) (st + 1) = _
          exact (ih he' (st + 1)).2 st' h
        · rw [cbBack1_step_open_cont F (s + (e + 1)) st (by rw [hce]; exact h2) h3]
          show cbBack1 F (s + e) (st - 1) = _
          exact (ih he' (st - 1)).2 st' h
        · rw [cbBack1_step_other F (s + (e + 1)) st
            (by rw [hce]; exact h1) (by rw [hce]; exact h2)]
          show cbBack1 F (s + e) st = _
          exact (ih he' st).2 st' h

/-- Full agreement, any `endChar`: the line's backward scan from `endChar`
equals the flat backward scan over the line's in-range indices. -/
theorem cbBackChar_flat_all (l F : List Char) (s : Nat)
    (hchar : ∀ j, j < l.length → F.getD (s + j) ' ' = l.getD j ' ')
    (e : Nat) (st : Int) :
    (∀ ch, cbBackChar l e st = Sum.inl ch →
      backFrom F (s + min (e + 1) l.length) st = some (s + ch)) ∧
    (∀ st', cbBackChar l e st = Sum.inr st' →
      backFrom F (s + min (e + 1) l.length) st = backFrom F s st') := by
  rcases Nat.eq_zero_or_pos l.length with h0 | hpos
  · have hnil : l = [] := List.length_eq_zero.mp h0
    subst hnil
    rw [cbBackChar_nil e st]
    constructor
    · intro ch h; exact Sum.noConfusion h
    · intro st' h
      cases h
      simp
  · rcases Nat.lt_or_ge e l.length with hin | hout
    · have hmin : min (e + 1) l.length = e + 1 := by omega
      rw [hmin]
      have hfe := cbBackChar_flat l F s hchar e hin st
      constructor
      · intro ch h
        have := hfe.1 ch h
        show cbBack1 F (s + e) st = _
        exact this
      · intro st' h
        have := hfe.2 st' h
        show cbBack1 F (s + e) st = _
        exact this
  -- out-of-range start: normalize to the last in-range index
    · have hmin : min (e + 1) l.length = l.length := by omega
      rw [hmin, cbBackChar_oob l e st hout]
      have hfe := cbBackChar_flat l F s hchar (l.length - 1) (by omega) st
      have hsl : s + l.length = (s + (l.length - 1)) + 1 := by omega
      constructor
      · intro ch h
        have := hfe.1 ch h
        rw [hsl]
        show cbBack1 F (s + (l.length - 1)) st = _
        exact this
      · intro st' h
        have := hfe.2 st' h
        rw [hsl]
        show cbBack1 F (s + (l.length - 1)) st = _
        exact this

theorem flatLineStart_zero (lines : List (List Char)) :
    flatLineStart lines 0 = 0 := by
  cases lines <;> rfl

theorem hchar_of_line (lines : List (List Char)) (line : Nat) :
    ∀ j, j < (lines.getD line []).length →
      (flatText lines).getD (flatLineStart lines line + j) ' ' =
        (lines.getD line []).getD j ' ' := by
  intro j hj
  have hline : line < lines.length := by
    by_contra hc
    push_neg at hc
    rw [List.getD_eq_default _ _ hc] at hj
    simp at hj
  exact flatText_getD lines hline hj

theorem line_lt_of_char {lines : List (List Char)} {line j : Nat}
    (hj : j < (lines.getD line []).length) : line < lines.length := by
  by_contra hc
  push_neg at hc
  rw [List.getD_eq_default _ _ hc] at hj
  simp at hj

/-- The backward line loop agrees with the flat backward scan: the scan
from line `line` (with its per-line `endChar`) is the flat scan from the
flat index just past the last examined character. -/
theorem cbBackLines_flat (lines : List (List Char)) (cl cc : Nat) :
    ∀ line, line ≤ cl → ∀ st,
      cbBackLines lines cl cc line st =
        Option.map (flatToPos lines)
          (backFrom (flatText lines)
            (flatLineStart lines line +
              min ((if line = cl then cc else (lines.getD line []).length) + 1)
                (lines.getD line []).length) st) := by
  intro line
  induction line with
  | zero =>
      intro _ st
      have hch := cbBackChar_flat_all (lines.getD 0 []) (flatText lines)
        (flatLineStart lines 0) (hchar_of_line lines 0)
        (if 0 = cl then cc else (lines.getD 0 []).length) st
      rcases hscan : cbBackChar (lines.getD 0 [])
          (if 0 = cl then cc else (lines.getD 0 []).length) st with ch | st'
      · have h1 := hch.1 ch hscan
        simp only [cbBackLines, hscan]
        rw [h1]
        obtain ⟨_, hbr⟩ := cbBackChar_inl_facts _ _ _ _ hscan
        have hchlt : ch < (lines.getD 0 []).length := getD_open_lt hbr
        have h0lt : 0 < lines.length := line_lt_of_char hchlt
        rw [show flatLineStart lines 0 + ch = flatIdxP lines 0 ch from rfl]
        simp only [Option.map_some']
        rw [flatToPos_eq lines h0lt hchlt]
      · have h2 := hch.2 st' hscan
        simp only [cbBackLines, hscan]
        rw [h2, flatLineStart_zero]
        rfl
  | succ line ihl =>
      intro hle st
      have hch := cbBackChar_flat_all (lines.getD (line + 1) []) (flatText lines)
        (flatLineStart lines (line + 1)) (hchar_of_line lines (line + 1))
        (if line + 1 = cl then cc else (lines.getD (line + 1) []).length) st
      rcases hscan : cbBackChar (lines.getD (line + 1) [])
          (if line + 1 = cl then cc else (lines.getD (line + 1) []).length) st
          with ch | st'
      · have h1 := hch.1 ch hscan
        simp only [cbBackLines, hscan]
        rw [h1]
        obtain ⟨_, hbr⟩ := cbBackChar_inl_facts _ _ _ _ hscan
        have hchlt : ch < (lines.getD (line + 1) []).length := getD_open_lt hbr
        have hllt : line + 1 < lines.length := line_lt_of_char hchlt
        rw [show flatLineStart lines (line + 1) + ch =
          flatIdxP lines (line + 1) ch from rfl]
        simp only [Option.map_some']
        rw [flatToPos_eq lines hllt hchlt]
      · have h2 := hch.2 st' hscan
        simp only [cbBackLines, hscan]
        rw [h2]
        have hI := ihl (by omega) st'
        rw [if_neg (show ¬ line = cl by omega),
          show min ((lines.getD line []).length + 1) (lines.getD line []).length =
            (lines.getD line []).length by omega] at hI
        rw [hI, flatLineStart_succ]

theorem cbFwdLineScan_inl_facts :
    ∀ (xs : List Char) (idx : Nat) (st : Int) (r : Nat),
      cbFwdLineScan xs idx st = Sum.inl r → idx ≤ r ∧ r < idx + xs.length := by
  intro xs
  induction xs with
  | nil => intro idx st r h; exact Sum.noConfusion h
  | cons ch rest ih =>
      intro idx st r h
      simp only [cbFwdLineScan] at h
      split_ifs at h with h1 h2 h3
      · obtain ⟨ha, hb⟩ := ih (idx + 1) (st + 1) r h
        exact ⟨by omega, by simp only [List.length_cons]; omega⟩
      · cases h
        exact ⟨le_refl _, by simp only [List.length_cons]; omega⟩
      · obtain ⟨ha, hb⟩ := ih (idx + 1) (st - 1) r h
        exact ⟨by omega, by simp only [List.length_cons]; omega⟩
      · obtain ⟨ha, hb⟩ := ih (idx + 1) st r h
        exact ⟨by omega, by simp only [List.length_cons]; omega⟩

/-- One line's forward scan composes with the forward scan of the rest of
the text: `δ` is the flat offset of line-local index `0`. -/
theorem cbFwdLineScan_append (δ : Nat) (ys : List Char) :
    ∀ (xs : List Char) (idx : Nat) (st : Int),
      (∀ r, cbFwdLineScan xs idx st = Sum.inl r →
        matchForwardAux '{' '}' (xs ++ ys) (δ + idx) st = some (δ + r)) ∧
      (∀ st', cbFwdLineScan xs idx st = Sum.inr st' →
        matchForwardAux '{' '}' (xs ++ ys) (δ + idx) st =
          matchForwardAux '{' '}' ys (δ + idx + xs.length) st') := by
  intro xs
  induction xs with
  | nil =>
      intro idx st
      constructor
      · intro r h; exact Sum.noConfusion h
      · intro st' h
        cases h
        simp [matchForwardAux]
  | cons ch rest ih =>
      intro idx st
      have hstep : ∀ (d : Int), matchForwardAux '{' '}' ((ch :: rest) ++ ys) (δ + idx) d =
          if ch = '{' then matchForwardAux '{' '}' (rest ++ ys) (δ + idx + 1) (d + 1)
          else if ch = '}' then
            (if d - 1 = 0 then some (δ + idx)
             else matchForwardAux '{' '}' (rest ++ ys) (δ + idx + 1) (d - 1))
          else matchForwardAux '{' '}' (rest ++ ys) (δ + idx + 1) d := by
        intro d
        rfl
      constructor
      · intro r h
        simp only [cbFwdLineScan] at h
        rw [hstep st]
        split_ifs at h with h1 h2 h3
        · rw [if_pos h1, show δ + idx + 1 = δ + (idx + 1) by omega]
          exact (ih (idx + 1) (st + 1)).1 r h
        · cases h
          rw [if_neg h1, if_pos h2, if_pos h3]
        · rw [if_neg h1, if_pos h2, if_neg h3,
            show δ + idx + 1 = δ + (idx + 1) by omega]
          exact (ih (idx + 1) (st - 1)).1 r h
        · rw [if_neg h1, if_neg h2, show δ + idx + 1 = δ + (idx + 1) by omega]
          exact (ih (idx + 1) st).1 r h
      · intro st' h
        simp only [cbFwdLineScan] at h
        rw [hstep st]
        split_ifs at h with h1 h2 h3
        · rw [if_pos h1, show δ + idx + 1 = δ + (idx + 1) by omega,
            (ih (idx + 1) (st + 1)).2 st' h]
          rw [show δ + (idx + 1) + rest.length = δ + idx + (ch :: rest).length by
            simp only [List.length_cons]; omega]
        · rw [if_neg h1, if_pos h2, if_neg h3,
            show δ + idx + 1 = δ + (idx + 1) by omega,
            (ih (idx + 1) (st - 1)).2 st' h]
          rw [show δ + (idx + 1) + rest.length = δ + idx + (ch :: rest).length by
            simp only [List.length_cons]; omega]
        · rw [if_neg h1, if_neg h2, show δ + idx + 1 = δ + (idx + 1) by omega,
            (ih (idx + 1) st).2 st' h]
          rw [show δ + (idx + 1) + rest.length = δ + idx + (ch :: rest).length by
            simp only [List.length_cons]; omega]

/-- The forward line loop agrees with the flat forward scan started at the
flat index just past the opening bracket. -/
theorem cbFwdLinesAux_flat (lines : List (List Char)) (ol oc : Nat)
    (hoc : oc + 1 ≤ (lines.getD ol []).length) :
    ∀ (ls : List (List Char)) (line : Nat) (st : Int),
      ls = lines.drop line → ol ≤ line →
      cbFwdLinesAux ol oc ls line st =
        Option.map (flatToPos lines)
          (matchForwardAux '{' '}'
            ((flatText lines).drop
              (flatLineStart lines line + (if line = ol then oc + 1 else 0)))
            (flatLineStart lines line + (if line = ol then oc + 1 else 0)) st) := by
  intro ls
  induction ls with
  | nil =>
      intro line st hls hol
      have hlen : lines.length ≤ line := by
        have := congrArg List.length hls
        simp only [List.length_nil, List.length_drop] at this
        omega
      have hq : (flatText lines).length ≤
          flatLineStart lines line + (if line = ol then oc + 1 else 0) := by
        rw [flatLineStart_ge_length lines line hlen]
        omega
      rw [List.drop_of_length_le hq]
      rfl
  | cons l rest ih =>
      intro line st hls hol
      obtain ⟨hg, hr, hlt⟩ := drop_cons_facts hls.symm
      have hsc_le : (if line = ol then oc + 1 else 0) ≤ l.length := by
        split_ifs with h
        · subst h; rw [hg] at hoc; exact hoc
        · omega
      have hflat : (flatText lines).drop
          (flatLineStart lines line + (if line = ol then oc + 1 else 0)) =
          l.drop (if line = ol then oc + 1 else 0) ++
            flatText (lines.drop (line + 1)) := by
        rw [← List.drop_drop, flatText_drop, ← hls, flatText_cons,
          List.drop_append_eq_append_drop,
          show (if line = ol then oc + 1 else 0) - l.length = 0 by omega,
          List.drop_zero, hr]
      have happ := cbFwdLineScan_append (flatLineStart lines line)
        (flatText (lines.drop (line + 1)))
        (l.drop (if line = ol then oc + 1 else 0))
        (if line = ol then oc + 1 else 0) st
      rcases hscan : cbFwdLineScan (l.drop (if line = ol then oc + 1 else 0))
          (if line = ol then oc + 1 else 0) st with r | st'
      · have h1 := happ.1 r hscan
        simp only [cbFwdLinesAux, hscan]
        rw [hflat, h1]
        obtain ⟨hra, hrb⟩ := cbFwdLineScan_inl_facts _ _ _ _ hscan
        rw [List.length_drop] at hrb
        have hrlt : r < l.length := by omega
        simp only [Option.map_some']
        rw [show flatLineStart lines line + r = flatIdxP lines line r from rfl,
          flatToPos_eq lines hlt (by rw [hg]; exact hrlt)]
      · have h2 := happ.2 st' hscan
        simp only [cbFwdLinesAux, hscan]
        rw [hflat, h2]
        have hq' : flatLineStart lines line + (if line = ol then oc + 1 else 0) +
            (l.drop (if line = ol then oc + 1 else 0)).length =
            flatLineStart lines (line + 1) := by
          rw [flatLineStart_succ, hg, List.length_drop]
          omega
        rw [hq', ← flatText_drop]
        have hI := ih (line + 1) st' hr.symm (by omega)
        rw [if_neg (show ¬ line + 1 = ol by omega), Nat.add_zero] at hI
        exact hI

/-- The whole forward phase in flat terms. -/
theorem cbFwdLines_flat (lines : List (List Char)) (ol oc : Nat)
    (holl : ol < lines.length) (hoc : oc < (lines.getD ol []).length) :
    cbFwdLines lines ol oc =
      Option.map (flatToPos lines)
        (matchForwardAux '{' '}'
          ((flatText lines).drop (flatIdxP lines ol oc + 1))
          (flatIdxP lines ol oc + 1) 1) := by
  unfold cbFwdLines
  have := cbFwdLinesAux_flat lines ol oc (by omega) (lines.drop ol) ol 1 rfl
    (le_refl ol)
  rw [if_pos rfl] at this
  rw [this, show flatLineStart lines ol + (oc + 1) = flatIdxP lines ol oc + 1
    from by simp only [flatIdxP]; omega]

theorem before_cursor_flat (lines : List (List Char)) (cl cc i j : Nat)
    (hj : j < (lines.getD i []).length)
    (h : i < cl ∨ (i = cl ∧ j < cc)) :
    flatIdxP lines i j <
      flatLineStart lines cl + min (cc + 1) (lines.getD cl []).length := by
  rcases h with hlt | ⟨heq, hjc⟩
  · have h1 : flatIdxP lines i j < flatLineStart lines (i + 1) := by
      rw [flatLineStart_succ]; simp only [flatIdxP]; omega
    have h2 : flatLineStart lines (i + 1) ≤ flatLineStart lines cl :=
      flatLineStart_mono lines (by omega)
    omega
  · subst heq
    simp only [flatIdxP]
    omega

theorem flat_lt_cursor (lines : List (List Char)) (cl cc i j : Nat)
    (hj : j < (lines.getD i []).length)
    (h : flatIdxP lines i j <
      flatLineStart lines cl + min (cc + 1) (lines.getD cl []).length) :
    i < cl ∨ (i = cl ∧ j ≤ cc) := by
  rcases Nat.lt_trichotomy i cl with hlt | heq | hgt
  · exact Or.inl hlt
  · subst heq
    refine Or.inr ⟨rfl, ?_⟩
    simp only [flatIdxP] at h
    omega
  · exfalso
    have h1 : flatLineStart lines (cl + 1) ≤ flatLineStart lines i :=
      flatLineStart_mono lines (by omega)
    rw [flatLineStart_succ] at h1
    simp only [flatIdxP] at h
    omega

theorem after_cursor_flat (lines : List (List Char)) (cl cc i j : Nat)
    (h : cl < i ∨ (cl = i ∧ cc < j)) :
    flatLineStart lines cl + min (cc + 1) (lines.getD cl []).length ≤
      flatIdxP lines i j := by
  rcases h with hlt | ⟨heq, hjc⟩
  · have h1 : flatLineStart lines (cl + 1) ≤ flatLineStart lines i :=
      flatLineStart_mono lines (by omega)
    rw [flatLineStart_succ] at h1
    simp only [flatIdxP]
    omega
  · subst heq
    simp only [flatIdxP]
    omega

theorem flat_ge_cursor (lines : List (List Char)) (cl cc i j : Nat)
    (hj : j < (lines.getD i []).length)
    (h : flatLineStart lines cl + min (cc + 1) (lines.getD cl []).length ≤
      flatIdxP lines i j) :
    cl < i ∨ (cl = i ∧ cc < j) := by
  rcases Nat.lt_trichotomy i cl with hlt | heq | hgt
  · exfalso
    have h1 : flatIdxP lines i j < flatLineStart lines (i + 1) := by
      rw [flatLineStart_succ]; simp only [flatIdxP]; omega
    have h2 : flatLineStart lines (i + 1) ≤ flatLineStart lines cl :=
      flatLineStart_mono lines (by omega)
    omega
  · subst heq
    refine Or.inr ⟨rfl, ?_⟩
    simp only [flatIdxP] at h
    omega
  · exact Or.inl hgt

/-- Soundness of `findBracketPairContainingCursor`: a returned pair is
well-formed and the cursor lies strictly inside it. -/
theorem containingPair_sound (lines : List (List Char)) (cl cc : Nat)
    (R : BracketPair)
    (h : findBracketPairContainingCursor lines cl cc = some R) :
    wellFormedPair lines R ∧ strictlyInside cl cc R := by
  have hbflat := cbBackLines_flat lines cl cc cl (le_refl cl) 0
  rw [if_pos rfl] at hbflat
  rcases hB : backFrom (flatText lines)
      (flatLineStart lines cl + min (cc + 1) (lines.getD cl []).length) 0
      with _ | n
  · exfalso
    rw [hB] at hbflat
    simp only [findBracketPairContainingCursor, hbflat, Option.map_none'] at h
    exact Option.noConfusion h
  · obtain ⟨e1, hE⟩ : ∃ e1,
        flatLineStart lines cl + min (cc + 1) (lines.getD cl []).length =
          e1 + 1 := by
      rcases hzero : flatLineStart lines cl +
          min (cc + 1) (lines.getD cl []).length with _ | e1
      · rw [hzero] at hB; exact Option.noConfusion hB
      · exact ⟨e1, rfl⟩
    rw [hE] at hB
    obtain ⟨hnle, ⟨hnb, hnbal⟩, hnmin⟩ :=
      (cbBack1_spec (flatText lines) e1 0).1 n hB
    have hnlt : n < (flatText lines).length := getD_open_lt hnb
    obtain ⟨ol, oc, holt, hoclt, hflatn, hposn⟩ := flat_surj lines hnlt
    have hbackeq : cbBackLines lines cl cc cl 0 = some (ol, oc) := by
      rw [hbflat, hE, hB]
      simp only [Option.map_some']
      rw [hposn]
    have hff := cbFwdLines_flat lines ol oc holt hoclt
    rcases hC : matchForwardAux '{' '}'
        ((flatText lines).drop (flatIdxP lines ol oc + 1))
        (flatIdxP lines ol oc + 1) 1 with _ | m
    · exfalso
      rw [hC] at hff
      simp only [findBracketPairContainingCursor, hbackeq, hff,
        Option.map_none'] at h
      exact Option.noConfusion h
    · obtain ⟨k, hmk, hmlt, hmc, hbal0, hpref⟩ :=
        @matchForwardAux_sound (flatText lines) '{' '}'
          ((flatText lines).drop (flatIdxP lines ol oc + 1))
          (flatIdxP lines ol oc + 1) 1 m rfl (by norm_num) hC
      rw [hflatn] at hmk hbal0 hpref
      obtain ⟨cll, clc, hcllt, hclclt, hflatm, hposm⟩ := flat_surj lines hmlt
      have hfwdeq : cbFwdLines lines ol oc = some (cll, clc) := by
        rw [hff, hC]
        simp only [Option.map_some']
        rw [hposm]
      simp only [findBracketPairContainingCursor, hbackeq, hfwdeq] at h
      split_ifs at h with hcond
      · cases h
        have hmval : m = n + 1 + k := hmk
        have hkm : m - (n + 1) = k := by omega
        have hintbal : segBal '{' '}' (flatText lines) (n + 1)
            (m - (n + 1)) = 0 := by
          have hs := segBal_succ_right '{' '}' (flatText lines) (n + 1) k
          rw [show n + 1 + k = m by omega, hmc,
            balStep_close (by decide) rfl] at hs
          rw [hkm]
          omega
        constructor
        · refine ⟨holt, hoclt, hcllt, hclclt, ?_⟩
          rw [hflatn, hflatm]
          refine ⟨by omega, hmlt, hnb, hmc, hintbal, ?_⟩
          intro j hj
          rw [hkm] at hj
          have := hpref j (by omega)
          omega
        · exact hcond

/-- C7, counterexample: the claim "whenever the cursor lies strictly inside
a well-formed curly-brace pair, containingPair returns exactly that pair"
fails.  On `"\x7b\x7ba\x7d\x7d"` the cursor `(0,2)` lies strictly inside the
well-formed outer pair `(0,0)-(0,4)`, but the function returns the inner
pair `(0,1)-(0,3)`; on `"\x7ba\x7b\x7d\x7d"` the cursor `(0,2)` lies
strictly inside the well-formed outer pair `(0,0)-(0,4)`, but because the
backward scan examines the `\x7b` under the cursor itself, the function
returns NotFound. -/
theorem containingPair_counterexample :
    (wellFormedPair ["\x7b\x7ba\x7d\x7d".data] ⟨0, 0, 0, 4⟩ ∧
      strictlyInside 0 2 ⟨0, 0, 0, 4⟩ ∧
      findBracketPairContainingCursor ["\x7b\x7ba\x7d\x7d".data] 0 2 =
        some ⟨0, 1, 0, 3⟩) ∧
    (wellFormedPair ["\x7ba\x7b\x7d\x7d".data] ⟨0, 0, 0, 4⟩ ∧
      strictlyInside 0 2 ⟨0, 0, 0, 4⟩ ∧
      findBracketPairContainingCursor ["\x7ba\x7b\x7d\x7d".data] 0 2 = none) := by
  decide

/-- C7: corrected containing-pair property.  Soundness holds as claimed: a
returned pair is well-formed and the cursor lies strictly inside it (hence
a cursor outside every pair yields NotFound).  The requirement that the
cursor being strictly inside a well-formed pair forces that pair to be
returned holds only for the *innermost* such pair (the one with the
largest flat opening index), and only when the character under the cursor
is not itself a `\x7b` (the backward scan examines the cursor's own
character, so an opening brace at the cursor hijacks or cancels the
scan). -/
theorem containingPair_correct (lines : List (List Char)) (cl cc : Nat) :
    (∀ P : BracketPair,
      (lines.getD cl []).getD cc ' ' ≠ '{' →
      wellFormedPair lines P →
      strictlyInside cl cc P →
      (∀ Q, wellFormedPair lines Q → strictlyInside cl cc Q →
        flatIdxP lines Q.openBracketLine Q.openBracketChar ≤
          flatIdxP lines P.openBracketLine P.openBracketChar) →
      findBracketPairContainingCursor lines cl cc = some P) ∧
    (∀ R, findBracketPairContainingCursor lines cl cc = some R →
      wellFormedPair lines R ∧ strictlyInside cl cc R) := by
  constructor
  · intro P hnot hwf hin hmax
    obtain ⟨holt, hoclt, hcllt, hclclt, hwfp⟩ := hwf
    have hoE : flatIdxP lines P.openBracketLine P.openBracketChar <
        flatLineStart lines cl + min (cc + 1) (lines.getD cl []).length := by
      apply before_cursor_flat lines cl cc _ _ hoclt
      rcases hin.1 with hh | ⟨h1, h2⟩
      · exact Or.inl hh
      · exact Or.inr ⟨h1.symm, h2⟩
    have hEc : flatLineStart lines cl + min (cc + 1) (lines.getD cl []).length ≤
        flatIdxP lines P.closeBracketLine P.closeBracketChar :=
      after_cursor_flat lines cl cc _ _ hin.2
    have hinner : ∀ o' c', wfpFlat (flatText lines) o' c' →
        o' < flatLineStart lines cl + min (cc + 1) (lines.getD cl []).length →
        flatLineStart lines cl + min (cc + 1) (lines.getD cl []).length ≤ c' →
        o' ≤ flatIdxP lines P.openBracketLine P.openBracketChar := by
      intro o' c' hwf' ho' hc'
      have ho'lt : o' < (flatText lines).length := getD_open_lt hwf'.2.2.1
      have hc'lt : c' < (flatText lines).length := hwf'.2.1
      obtain ⟨i1, j1, hi1, hj1, hfo', hpo'⟩ := flat_surj lines ho'lt
      obtain ⟨i2, j2, hi2, hj2, hfc', hpc'⟩ := flat_surj lines hc'lt
      have hopen := flat_lt_cursor lines cl cc i1 j1 hj1 (by rw [hfo']; exact ho')
      have hstrict : cl > i1 ∨ (cl = i1 ∧ cc > j1) := by
        rcases hopen with hh | ⟨h1, h2⟩
        · exact Or.inl hh
        · rcases Nat.lt_or_ge j1 cc with hlt2 | hge2
          · exact Or.inr ⟨h1.symm, hlt2⟩
          · exfalso
            apply hnot
            have hchar := flatText_getD lines hi1 hj1
            rw [hfo'] at hchar
            have hj1cc : j1 = cc := by omega
            rw [← h1, ← hj1cc, ← hchar]
            exact hwf'.2.2.1
      have hclose := flat_ge_cursor lines cl cc i2 j2 hj2 (by rw [hfc']; exact hc')
      have hQle : flatIdxP lines i1 j1 ≤
          flatIdxP lines P.openBracketLine P.openBracketChar :=
        hmax ⟨i1, j1, i2, j2⟩
          ⟨hi1, hj1, hi2, hj2, by rw [hfo', hfc']; exact hwf'⟩
          ⟨hstrict, hclose⟩
      rw [hfo'] at hQle
      exact hQle
    have hback := back1_innermost (flatText lines)
      (flatIdxP lines P.openBracketLine P.openBracketChar)
      (flatIdxP lines P.closeBracketLine P.closeBracketChar)
      (flatLineStart lines cl + min (cc + 1) (lines.getD cl []).length)
      hwfp hoE hEc hinner
    have hbflat := cbBackLines_flat lines cl cc cl (le_refl cl) 0
    rw [if_pos rfl] at hbflat
    have hbackeq : cbBackLines lines cl cc cl 0 =
        some (P.openBracketLine, P.openBracketChar) := by
      rw [hbflat, hback]
      simp only [Option.map_some']
      rw [flatToPos_eq lines holt hoclt]
    have hfwd := cbFwdLines_flat lines P.openBracketLine P.openBracketChar
      holt hoclt
    obtain ⟨hoc', hclen', hob', hcb', hbal', hpre'⟩ := hwfp
    have hcomp := matchForwardAux_complete (flatText lines)
      (flatIdxP lines P.openBracketLine P.openBracketChar)
      (flatIdxP lines P.closeBracketLine P.closeBracketChar)
      hoc' hclen' hcb' hbal' hpre'
    have hfwdeq : cbFwdLines lines P.openBracketLine P.openBracketChar =
        some (P.closeBracketLine, P.closeBracketChar) := by
      rw [hfwd, hcomp]
      simp only [Option.map_some']
      rw [flatToPos_eq lines hcllt hclclt]
    have hin' : (cl > P.openBracketLine ∨
        (cl = P.openBracketLine ∧ cc > P.openBracketChar)) ∧
        (cl < P.closeBracketLine ∨
          (cl = P.closeBracketLine ∧ cc < P.closeBracketChar)) := hin
    simp only [findBracketPairContainingCursor, hbackeq, hfwdeq]
    rw [if_pos hin']
  · exact containingPair_sound lines cl cc

/-- Witness for `containingPair_correct`: on `"\x7b a \x7d"` with the
cursor at `(0,2)`, the unique containing pair `(0,0)-(0,4)` is returned,
and conversely the returned pair is well-formed with the cursor strictly
inside. -/
theorem containingPair_correct_witness :
    findBracketPairContainingCursor ["\x7b a \x7d".data] 0 2 =
      some ⟨0, 0, 0, 4⟩ ∧
    (wellFormedPair ["\x7b a \x7d".data] ⟨0, 0, 0, 4⟩ ∧
      strictlyInside 0 2 ⟨0, 0, 0, 4⟩) := by
  have hidx : ∀ j : Nat, flatIdxP ["\x7b a \x7d".data] 0 j = j := by
    intro j
    simp [flatIdxP, flatLineStart]
  have hA := (containingPair_correct ["\x7b a \x7d".data] 0 2).1
    ⟨0, 0, 0, 4⟩ (by decide) (by decide) (by decide)
    (by
      intro Q hwf hin
      obtain ⟨hbl, hbc, _, _, hwfp⟩ := hwf
      have hbl0 : Q.openBracketLine = 0 := by
        simp only [List.length_singleton] at hbl
        omega
      have hoc2 : Q.openBracketChar < 2 := by
        rcases hin.1 with hh | ⟨_, hh⟩
        · omega
        · omega
      have hob := hwfp.2.2.1
      rw [hbl0] at hob ⊢
      rw [hidx] at hob
      rw [hidx, hidx]
      rcases Nat.eq_zero_or_pos Q.openBracketChar with h0 | hpos
      · rw [h0]
      · exfalso
        have h1 : Q.openBracketChar = 1 := by omega
        rw [h1] at hob
        exact absurd hob (by decide))
  refine ⟨hA, (containingPair_correct ["\x7b a \x7d".data] 0 2).2 _ hA⟩

theorem drop_eq_getD_cons_poly {α : Type} {d : α} {l : List α} {n : Nat}
    (h : n < l.length) : l.drop n = l.getD n d :: l.drop (n + 1) := by
  obtain ⟨x, rest, hx⟩ : ∃ x rest, l.drop n = x :: rest := by
    rcases hd : l.drop n with _ | ⟨x, rest⟩
    · rw [List.drop_eq_nil_iff] at hd; omega
    · exact ⟨x, rest, rfl⟩
  obtain ⟨hg, hr, _⟩ := drop_cons_facts hx
  rw [hx, hg, hr]

theorem matchBackward_some_char (text : List Char) (c o : Char) :
    ∀ (p : Nat) (d : Int) (m : Nat), matchBackward text c o p d = some m →
      text.getD m ' ' = o := by
  intro p
  induction p with
  | zero =>
      intro d m h
      simp only [matchBackward] at h
      split_ifs at h with h1
      · cases h; exact h1.1
  | succ p ih =>
      intro d m h
      simp only [matchBackward] at h
      split_ifs at h with h1
      · cases h; exact h1.1
      all_goals exact ih _ m h

/-- C10: the `findNextBracketPair` search for the next opening bracket is
inclusive of the character under the cursor: if that character is `\x7b`
and it has a balancing `\x7d`, the returned pair opens exactly at the
cursor position. -/
theorem nextPair_inclusive_at_cursor (lines : List (List Char))
    (cl cc cll clc : Nat)
    (hopen : (lines.getD cl []).getD cc ' ' = '{')
    (hwf : wellFormedPair lines ⟨cl, cc, cll, clc⟩) :
    findNextBracketPair lines cl cc = some ⟨cl, cc, cll, clc⟩ := by
  obtain ⟨hclt, hcclt, hcllt, hclclt, hwfp⟩ := hwf
  have hopeneq : cbFindOpenLinesAux cl cc (lines.drop cl) cl = some (cl, cc) := by
    rw [@drop_eq_getD_cons_poly (List Char) [] lines cl hclt]
    simp only [cbFindOpenLinesAux]
    rw [if_pos trivial,
      drop_eq_getD_cons (show cc < (lines.getD cl []).length from hcclt), hopen]
    simp only [cbFindOpenAux]
    rw [if_pos trivial]
  have hfwd := cbFwdLines_flat lines cl cc hclt hcclt
  obtain ⟨hoc', hclen', hob', hcb', hbal', hpre'⟩ := hwfp
  have hcomp := matchForwardAux_complete (flatText lines)
    (flatIdxP lines cl cc) (flatIdxP lines cll clc) hoc' hclen' hcb' hbal' hpre'
  have hfwdeq : cbFwdLines lines cl cc = some (cll, clc) := by
    rw [hfwd, hcomp]
    simp only [Option.map_some']
    rw [flatToPos_eq lines hcllt hclclt]
  simp only [findNextBracketPair, hopeneq, hfwdeq]

/-- Witness for `nextPair_inclusive_at_cursor`: in `"x\x7b\x7d"` with the
cursor on the `\x7b` at `(0,1)`, the pair `(0,1)-(0,2)` is returned, not a
later pair. -/
theorem nextPair_inclusive_at_cursor_witness :
    findNextBracketPair ["x\x7b\x7d".data] 0 1 = some ⟨0, 1, 0, 2⟩ :=
  nextPair_inclusive_at_cursor ["x\x7b\x7d".data] 0 1 0 2 (by decide) (by decide)

/-- C9: on unbalanced input every resolver reports NotFound rather than
failing: `findMatchingClosingChar` (here `matchForward`) returns the
`-1`-sentinel (`none`) when no balancing closing delimiter exists;
`findMatchingOpeningChar` (here `matchBackward`) returns `none` when no
opening delimiter occurs at all; the brace scope resolver returns NotFound
when no line triggers balance; and the bracket pair finder returns `none`
when no well-formed pair strictly contains the cursor.  (Termination on
every input holds by construction: each scan is structurally recursive on
the remaining buffer.) -/
theorem unbalanced_input_notfound :
    (∀ (text : List Char) (o c : Char) (pos : Nat) (d : Int), 1 ≤ d →
      (∀ m, ¬ (m < text.length ∧ text.getD m ' ' = c ∧
        d + segBal o c text pos (m - pos + 1) = 0)) →
      matchForward text o c pos d = none) ∧
    (∀ (text : List Char) (c o : Char) (p : Nat) (d : Int),
      (∀ i, text.getD i ' ' ≠ o) →
      matchBackward text c o p d = none) ∧
    (∀ (lines : List (List Char)) (startLine : Nat),
      (∀ e, startLine ≤ e → e < lines.length →
        ¬ tsTriggerLine lines startLine e) →
      tsFindScopeBoundary lines startLine startLine = none) ∧
    (∀ (lines : List (List Char)) (cl cc : Nat),
      (∀ R : BracketPair, ¬ (wellFormedPair lines R ∧ strictlyInside cl cc R)) →
      findBracketPairContainingCursor lines cl cc = none) := by
  refine ⟨?_, ?_, ?_, ?_⟩
  · intro text o c pos d hd hno
    rcases h : matchForward text o c pos d with _ | m
    · rfl
    · exfalso
      unfold matchForward at h
      obtain ⟨k, hmk, hmlt, hmc, hbal, _⟩ :=
        matchForwardAux_sound (text.drop pos) pos d m rfl hd h
      exact hno m ⟨hmlt, hmc, by rw [show m - pos + 1 = k + 1 by omega]; exact hbal⟩
  · intro text c o p d hno
    rcases h : matchBackward text c o p d with _ | m
    · rfl
    · exact absurd (matchBackward_some_char text c o p d m h) (hno m)
  · intro lines startLine hnone
    obtain ⟨S1, S2⟩ := @tsGo_spec lines startLine
      (lines.drop startLine) startLine 0 false rfl (fun _ => le_refl 0)
    simp only [zero_add] at S2
    unfold tsTriggerLine at hnone
    unfold tsFindScopeBoundary
    exact S2 hnone
  · intro lines cl cc hno
    rcases h : findBracketPairContainingCursor lines cl cc with _ | R
    · rfl
    · exact absurd (containingPair_sound lines cl cc R h) (hno R)

/-- Witness for `unbalanced_input_notfound`: an unterminated `(`, a buffer
with no `(` at all, an unterminated brace scope and a buffer whose only
character is `\x7b` all resolve to NotFound. -/
theorem unbalanced_input_notfound_witness :
    matchForward "(".data '(' ')' 0 1 = none ∧
    matchBackward ")".data ')' '(' 0 1 = none ∧
    tsFindScopeBoundary ["void f() \x7b".data] 0 0 = none ∧
    findBracketPairContainingCursor ["\x7b".data] 0 0 = none := by
  refine ⟨?_, ?_, ?_, ?_⟩
  · exact unbalanced_input_notfound.1 "(".data '(' ')' 0 1 (by norm_num)
      (fun m hm => by
        obtain ⟨h1, h2, _⟩ := hm
        have hm0 : m = 0 := by
          have h3 : m < 1 := by simpa using h1
          omega
        subst hm0
        exact absurd h2 (by decide))
  · exact unbalanced_input_notfound.2.1 ")".data ')' '(' 0 1
      (fun i hc => by
        rcases Nat.lt_or_ge i 1 with hlt | hge
        · have hi0 : i = 0 := by omega
          subst hi0
          exact absurd hc (by decide)
        · rw [List.getD_eq_default _ _ (by simpa using hge)] at hc
          exact absurd hc (by decide))
  · exact unbalanced_input_notfound.2.2.1 ["void f() \x7b".data] 0
      (fun e _ h2 => by
        have he0 : e = 0 := by
          have h3 : e < 1 := by simpa using h2
          omega
        subst he0
        decide)
  · exact unbalanced_input_notfound.2.2.2 ["\x7b".data] 0 0
      (fun R hR => by
        obtain ⟨hwf, _⟩ := hR
        obtain ⟨_, _, _, _, hwfp⟩ := hwf
        obtain ⟨_, hclen, _, hcb, _, _⟩ := hwfp
        have hlen1 : (flatText ["\x7b".data]).length = 1 := rfl
        have h0 : flatIdxP ["\x7b".data] R.closeBracketLine
            R.closeBracketChar = 0 := by omega
        rw [h0] at hcb
        exact absurd hcb (by decide))

/-- C8, counterexample: for the buffer `"ab c"` and position `(0,1)` (strictly
inside the identifier run `ab`), `forward` returns the unit `[1,2)`, which is
not the last unit of the buffer, yet `backward` at its end position returns
the full run `[0,2)`, a different boundary — refuting the claimed round trip
as stated. -/
theorem sexp_roundTrip_counterexample :
    findForwardSexp "ab c".data ⟨0, 1⟩ = some ⟨0, 1, 0, 2⟩ ∧
    (findForwardSexp "ab c".data ⟨0, 2⟩).isSome = true ∧
    findBackwardSexp "ab c".data ⟨0, 2⟩ = some ⟨0, 0, 0, 2⟩ ∧
    (⟨0, 0, 0, 2⟩ : SexpBoundary) ≠ ⟨0, 1, 0, 2⟩ := by decide

/-- C8 (amended): round trip of the sexp scanner.  For every buffer and
position `p` at which the forward scan finds a unit that is not the last
unit in the buffer, **and whose start is not immediately preceded by an
identifier character** (the preceding character can be one only when `p`
lies strictly inside an identifier run), calling `backward` at the end
position of `forward(buffer, p)` returns a boundary equal to
`forward(buffer, p)`. -/
theorem sexp_roundTrip (text : List Char) (p : Pos) (B : SexpBoundary)
    (hf : findForwardSexp text p = some B)
    (hside : offsetAtPos text B.startPos = 0 ∨
      isIdentChar (text.getD (offsetAtPos text B.startPos - 1) ' ') = false)
    (hnotlast : (findForwardSexp text B.endPos).isSome = true) :
    findBackwardSexp text B.endPos = some B := by
  unfold findForwardSexp at hf
  rcases hro : findForwardFrom text (offsetAtPos text p) with _ | ⟨s, e⟩
  · rw [hro] at hf; exact Option.noConfusion hf
  · rw [hro] at hf
    obtain rfl : mkBoundary text s e = B := by
      simpa using hf
    obtain ⟨hps, hse, hel, hback⟩ := findForwardFrom_main hro
    have hsl : s ≤ text.length := by omega
    have hBs : offsetAtPos text (mkBoundary text s e).startPos = s :=
      offsetAt_positionAt text s hsl
    have hBe : offsetAtPos text (mkBoundary text s e).endPos = e :=
      offsetAt_positionAt text e hel
    rw [hBs] at hside
    unfold findBackwardSexp
    rw [hBe, hback hside]
    rfl

/-- Witness for `sexp_roundTrip` at the buffer `"(a) b"`: the forward unit
from the origin is the group `(a)`, it is not the last unit, and the
backward scan from its end recovers it. -/
theorem sexp_roundTrip_witness :
    findBackwardSexp "(a) b".data ⟨0, 3⟩ = some ⟨0, 0, 0, 3⟩ :=
  sexp_roundTrip "(a) b".data ⟨0, 0⟩ ⟨0, 0, 0, 3⟩ (by decide) (by decide) (by decide)

end VSU
